import Mathlib

/-!
# The rebalancing engine of distributer.go

A shallow embedding of `distribute` and of the helpers it calls (`getPrice`,
`getPortfolioValue`, `getAmount`), followed by theorems about them.

Modelling choices.

* Every `float64` of the source is an exact rational number (`ℚ`): `math.Floor` is the
  integer floor, `math.Abs` the absolute value, and `math.Mod x y` is
  `x - y * trunc (x / y)`, the truncated remainder that carries the sign of `x`.
  Infinities and NaN are not modelled.  In particular a division by a zero price, which
  yields an infinity or a NaN in the source, yields `0` here, so the theorems that say
  something about numbers assume strictly positive prices.
* A `map[string]float64` is a function `String → Option ℚ` (`none`: key absent).
* The set `visited` (a `map[string]bool` that only ever stores `true`) is the list of
  the tickers inserted so far; the key test `_, ok := visited[t]` is list membership.
* The `for ... range ranking` loop with its `break` is the recursive function
  `rankingLoop` over the loop state `LoopState`; its body is `iteration`.
* Where rounding decides a property, the same code is given once more with every
  arithmetic result passed through a rounding function (`distributeWith`); `roundF64` is
  the rounding of `float64`, and with the identity the two models coincide
  (`distributeWith_id`).
-/

namespace Distributer

/-! ## Data model -/

/-- A holding: `Position` of the source. -/
structure Position where
  Ticket : String
  Amount : ℚ
deriving DecidableEq

/-- A buy or sell instruction: `Operation` of the source. -/
structure Operation where
  Op : String
  Ticket : String
  Amount : ℚ
deriving DecidableEq

/-- The price map `map[string]float64`. -/
abbrev Prices := String → Option ℚ

/-! ## Helpers of the source -/

/-- The function `getPrice` of the source: the price of the ticket, `0` when the map has none. -/
def getPrice (prices : Prices) (ticket : String) : ℚ :=
  match prices ticket with
  | some price => price
  | none => 0

/-- The function `getPortfolioValue` of the source: `sum := 0`, then `sum += price * amount` for each
position in order. -/
def getPortfolioValue (portfolio : List Position) (prices : Prices) : ℚ :=
  portfolio.foldl (fun sum p => sum + getPrice prices p.Ticket * p.Amount) 0

/-- The function `getAmount` of the source: the amount of the first position with that ticket, `0`
when there is none. -/
def getAmount : List Position → String → ℚ
  | [], _ => 0
  | p :: rest, ticket => if p.Ticket = ticket then p.Amount else getAmount rest ticket

/-- Truncation toward zero. -/
def trunc (x : ℚ) : ℤ := if 0 ≤ x then ⌊x⌋ else ⌈x⌉

/-- The library function `math.Mod` on finite arguments with `y ≠ 0`:
`x - y * trunc (x / y)`, whose sign agrees with that of `x`. -/
def mathMod (x y : ℚ) : ℚ := x - y * (trunc (x / y) : ℚ)

/-! ## The ranking loop of `distribute` -/

/-- The variables that the ranking loop of `distribute` updates. -/
structure LoopState where
  balanced : List Position
  operations : List Operation
  finalBalance : ℚ
  visited : List String
deriving DecidableEq

/-- The local `required` after the clamp `if required > finalBalance`. -/
def required (portfolio : List Position) (prices : Prices) (target finalBalance : ℚ)
    (ticket : String) : ℚ :=
  let currentValue := getPrice prices ticket * getAmount portfolio ticket
  let required := |target - currentValue|
  if required > finalBalance then finalBalance else required

/-- The local `operationAmount` right after `math.Floor(required / ticketPrice)`,
before the rounding to lots. -/
def unroundedAmount (portfolio : List Position) (prices : Prices) (target finalBalance : ℚ)
    (ticket : String) : ℤ :=
  ⌊required portfolio prices target finalBalance ticket / getPrice prices ticket⌋

/-- The local `operationAmount` after `if operationAmount > 100 { operationAmount -=
math.Mod(operationAmount, 100) }`. -/
def operationAmount (portfolio : List Position) (prices : Prices) (target finalBalance : ℚ)
    (ticket : String) : ℚ :=
  let operationAmount : ℚ := (unroundedAmount portfolio prices target finalBalance ticket : ℚ)
  if operationAmount > 100 then operationAmount - mathMod operationAmount 100
  else operationAmount

/-- The local `operationValue`: `math.Floor(operationAmount * ticketPrice)`. -/
def operationValue (portfolio : List Position) (prices : Prices) (target finalBalance : ℚ)
    (ticket : String) : ℚ :=
  ((⌊operationAmount portfolio prices target finalBalance ticket * getPrice prices ticket⌋ : ℤ) : ℚ)

/-- One pass through the body of the ranking loop, from the statement
`visited[ticket] = true` on (the test `finalBalance == 0` is in `rankingLoop`).
When neither `if` matches, the body ends without appending anything. -/
def iteration (portfolio : List Position) (prices : Prices) (target : ℚ) (ticket : String)
    (s : LoopState) : LoopState :=
  let visited := s.visited ++ [ticket]
  let currentAmount := getAmount portfolio ticket
  let currentValue := getPrice prices ticket * currentAmount
  let operationAmount := operationAmount portfolio prices target s.finalBalance ticket
  let operationValue := operationValue portfolio prices target s.finalBalance ticket
  if currentValue ≥ target ∧ operationAmount ≥ 100 then
    { balanced := s.balanced ++ [{ Ticket := ticket, Amount := currentAmount - operationAmount }]
      operations := s.operations ++ [{ Op := "sell", Ticket := ticket, Amount := operationAmount }]
      finalBalance := s.finalBalance + operationValue
      visited := visited }
  else if target ≥ currentValue then
    { balanced := s.balanced ++ [{ Ticket := ticket, Amount := currentAmount + operationAmount }]
      operations := s.operations ++ [{ Op := "buy", Ticket := ticket, Amount := operationAmount }]
      finalBalance := s.finalBalance - operationValue
      visited := visited }
  else
    { s with visited := visited }

/-- The loop `for _, ticket := range ranking`: it stops (`break`) at the first entry
reached with `finalBalance == 0`. -/
def rankingLoop (portfolio : List Position) (prices : Prices) (target : ℚ) :
    List String → LoopState → LoopState
  | [], s => s
  | ticket :: rest, s =>
    if s.finalBalance = 0 then s
    else rankingLoop portfolio prices target rest (iteration portfolio prices target ticket s)

/-- The second loop of `distribute`: a sell of the whole amount for every position whose
ticket is not a key of `visited`, in portfolio order. -/
def liquidate (visited : List String) : List Position → List Operation → List Operation
  | [], operations => operations
  | position :: rest, operations =>
    if position.Ticket ∈ visited then liquidate visited rest operations
    else liquidate visited rest
      (operations ++ [{ Op := "sell", Ticket := position.Ticket, Amount := position.Amount }])

/-- The state of `distribute` before its ranking loop. -/
def initialState (portfolio : List Position) (money : ℚ) (prices : Prices) : LoopState :=
  { balanced := [], operations := [],
    finalBalance := money + getPortfolioValue portfolio prices, visited := [] }

/-- The local `target` of `distribute`. -/
def targetValue (portfolio : List Position) (ranking : List String) (money : ℚ)
    (prices : Prices) : ℚ :=
  (money + getPortfolioValue portfolio prices) / (ranking.length : ℚ)

/-- The state of `distribute` when its ranking loop has ended. -/
def loopResult (portfolio : List Position) (ranking : List String) (money : ℚ)
    (prices : Prices) : LoopState :=
  rankingLoop portfolio prices (targetValue portfolio ranking money prices) ranking
    (initialState portfolio money prices)

/-- The function `distribute` of the source: the balanced portfolio and the operations. -/
def distribute (portfolio : List Position) (ranking : List String) (money : ℚ)
    (prices : Prices) : List Position × List Operation :=
  let s := loopResult portfolio ranking money prices
  (s.balanced, liquidate s.visited portfolio s.operations)

/-- The price map of the two-ticket scenario: AAA at 10 and BBB at 20. -/
def pricesAB : Prices := fun t =>
  if t = "AAA" then some 10 else if t = "BBB" then some 20 else none

/-! ## The same code with every arithmetic result rounded

`distribute` once more, with each sum, difference, product and quotient of the source
passed through a rounding function `rnd`, in the order in which the source computes them.
With `rnd := roundF64` this is the arithmetic of `float64` as long as every result is
finite and no product is fused with a sum; with `rnd := id` it is the exact model above.
`math.Floor`, `math.Abs` and `math.Mod` are exact on doubles, as are the comparisons. -/

/-- Rounding to the nearest integer, a tie going to the even one. -/
def roundHalfEven (x : ℚ) : ℤ :=
  if x - (⌊x⌋ : ℚ) < 1 / 2 then ⌊x⌋
  else if x - (⌊x⌋ : ℚ) > 1 / 2 then ⌊x⌋ + 1
  else if ⌊x⌋ % 2 = 0 then ⌊x⌋ else ⌊x⌋ + 1

/-- The exponent of the spacing of the doubles around `x`: 53 significant bits, and the
spacing `2 ^ (-1074)` of the subnormal doubles below `2 ^ (-1022)`. -/
def ulpExponent (x : ℚ) : ℤ := max (Int.log 2 |x|) (-1022) - 52

/-- The double nearest to `x`, ties to even (the rounding of every `float64` operation),
for `|x|` below the overflow threshold. -/
def roundF64 (x : ℚ) : ℚ :=
  (roundHalfEven (x / (2 : ℚ) ^ ulpExponent x) : ℚ) * (2 : ℚ) ^ ulpExponent x

/-- The function `getPortfolioValue` of the source, each product and each sum rounded. -/
def getPortfolioValueWith (rnd : ℚ → ℚ) (portfolio : List Position) (prices : Prices) : ℚ :=
  portfolio.foldl (fun sum p => rnd (sum + rnd (getPrice prices p.Ticket * p.Amount))) 0

/-- The local `required` after the clamp, with `currentValue` and the difference rounded. -/
def requiredWith (rnd : ℚ → ℚ) (portfolio : List Position) (prices : Prices)
    (target finalBalance : ℚ) (ticket : String) : ℚ :=
  let currentValue := rnd (getPrice prices ticket * getAmount portfolio ticket)
  let required := |rnd (target - currentValue)|
  if required > finalBalance then finalBalance else required

/-- The local `operationAmount` right after `math.Floor(required / ticketPrice)`, the
quotient rounded. -/
def unroundedAmountWith (rnd : ℚ → ℚ) (portfolio : List Position) (prices : Prices)
    (target finalBalance : ℚ) (ticket : String) : ℤ :=
  ⌊rnd (requiredWith rnd portfolio prices target finalBalance ticket / getPrice prices ticket)⌋

/-- The local `operationAmount` after the rounding to lots, the difference rounded. -/
def operationAmountWith (rnd : ℚ → ℚ) (portfolio : List Position) (prices : Prices)
    (target finalBalance : ℚ) (ticket : String) : ℚ :=
  let operationAmount : ℚ :=
    (unroundedAmountWith rnd portfolio prices target finalBalance ticket : ℚ)
  if operationAmount > 100 then rnd (operationAmount - mathMod operationAmount 100)
  else operationAmount

/-- The local `operationValue`, the product rounded. -/
def operationValueWith (rnd : ℚ → ℚ) (portfolio : List Position) (prices : Prices)
    (target finalBalance : ℚ) (ticket : String) : ℚ :=
  ((⌊rnd (operationAmountWith rnd portfolio prices target finalBalance ticket
    * getPrice prices ticket)⌋ : ℤ) : ℚ)

/-- One pass through the body of the ranking loop, every result rounded. -/
def iterationWith (rnd : ℚ → ℚ) (portfolio : List Position) (prices : Prices) (target : ℚ)
    (ticket : String) (s : LoopState) : LoopState :=
  let visited := s.visited ++ [ticket]
  let currentAmount := getAmount portfolio ticket
  let currentValue := rnd (getPrice prices ticket * currentAmount)
  let operationAmount := operationAmountWith rnd portfolio prices target s.finalBalance ticket
  let operationValue := operationValueWith rnd portfolio prices target s.finalBalance ticket
  if currentValue ≥ target ∧ operationAmount ≥ 100 then
    { balanced := s.balanced ++
        [{ Ticket := ticket, Amount := rnd (currentAmount - operationAmount) }]
      operations := s.operations ++ [{ Op := "sell", Ticket := ticket, Amount := operationAmount }]
      finalBalance := rnd (s.finalBalance + operationValue)
      visited := visited }
  else if target ≥ currentValue then
    { balanced := s.balanced ++
        [{ Ticket := ticket, Amount := rnd (currentAmount + operationAmount) }]
      operations := s.operations ++ [{ Op := "buy", Ticket := ticket, Amount := operationAmount }]
      finalBalance := rnd (s.finalBalance - operationValue)
      visited := visited }
  else
    { s with visited := visited }

/-- The ranking loop, every result rounded. -/
def rankingLoopWith (rnd : ℚ → ℚ) (portfolio : List Position) (prices : Prices) (target : ℚ) :
    List String → LoopState → LoopState
  | [], s => s
  | ticket :: rest, s =>
    if s.finalBalance = 0 then s
    else rankingLoopWith rnd portfolio prices target rest
      (iterationWith rnd portfolio prices target ticket s)

/-- The state of `distribute` before its ranking loop, the sum rounded. -/
def initialStateWith (rnd : ℚ → ℚ) (portfolio : List Position) (money : ℚ)
    (prices : Prices) : LoopState :=
  { balanced := [], operations := [],
    finalBalance := rnd (money + getPortfolioValueWith rnd portfolio prices), visited := [] }

/-- The local `target` of `distribute`: the conversion `float64(len(ranking))` and the
quotient rounded. -/
def targetValueWith (rnd : ℚ → ℚ) (portfolio : List Position) (ranking : List String)
    (money : ℚ) (prices : Prices) : ℚ :=
  rnd ((initialStateWith rnd portfolio money prices).finalBalance / rnd (ranking.length : ℚ))

/-- The function `distribute` of the source, every arithmetic result rounded. -/
def distributeWith (rnd : ℚ → ℚ) (portfolio : List Position) (ranking : List String)
    (money : ℚ) (prices : Prices) : List Position × List Operation :=
  let s := rankingLoopWith rnd portfolio prices
    (targetValueWith rnd portfolio ranking money prices) ranking
    (initialStateWith rnd portfolio money prices)
  (s.balanced, liquidate s.visited portfolio s.operations)

/-- The price map {AAA:3/10}. -/
def pricesCheap : Prices := fun t => if t = "AAA" then some (3 / 10) else none

/-- The price map {AAA:3}. -/
def pricesThree : Prices := fun t => if t = "AAA" then some 3 else none

/-! ## Shape of the loop and of the liquidation pass -/

/-- The body of the loop inserts its ticket in `visited`. -/
theorem iteration_visited (portfolio : List Position) (prices : Prices) (target : ℚ)
    (ticket : String) (s : LoopState) :
    (iteration portfolio prices target ticket s).visited = s.visited ++ [ticket] := by
  unfold iteration
  dsimp only
  split_ifs <;> rfl

/-- The body of the loop either appends one position and one operation (a sell or a buy),
both for its ticket and the operation of amount `operationAmount`, or appends nothing. -/
theorem iteration_shape (portfolio : List Position) (prices : Prices) (target : ℚ)
    (ticket : String) (s : LoopState) :
    (∃ a op, (op = "sell" ∨ op = "buy") ∧
        (iteration portfolio prices target ticket s).balanced
          = s.balanced ++ [(⟨ticket, a⟩ : Position)] ∧
        (iteration portfolio prices target ticket s).operations
          = s.operations ++
            [(⟨op, ticket, operationAmount portfolio prices target s.finalBalance ticket⟩ :
              Operation)]) ∨
      ((iteration portfolio prices target ticket s).balanced = s.balanced ∧
        (iteration portfolio prices target ticket s).operations = s.operations) := by
  unfold iteration
  dsimp only
  split_ifs
  · exact Or.inl ⟨_, _, Or.inl rfl, rfl, rfl⟩
  · exact Or.inl ⟨_, _, Or.inr rfl, rfl, rfl⟩
  · exact Or.inr ⟨rfl, rfl⟩

/-- Once the budget is zero the loop changes nothing, whatever is left of the ranking. -/
theorem rankingLoop_of_zero (portfolio : List Position) (prices : Prices) (target : ℚ)
    (ranking : List String) (s : LoopState) (h : s.finalBalance = 0) :
    rankingLoop portfolio prices target ranking s = s := by
  cases ranking with
  | nil => rfl
  | cons t rest => simp [rankingLoop, h]

/-- Running the loop over `pre ++ rest` is running it over `pre`, then over `rest`. -/
theorem rankingLoop_append (portfolio : List Position) (prices : Prices) (target : ℚ)
    (pre rest : List String) (s : LoopState) :
    rankingLoop portfolio prices target (pre ++ rest) s
      = rankingLoop portfolio prices target rest (rankingLoop portfolio prices target pre s) := by
  induction pre generalizing s with
  | nil => rfl
  | cons t pre ih =>
    by_cases h : s.finalBalance = 0
    · simp [rankingLoop, h, rankingLoop_of_zero]
    · simp [rankingLoop, h, ih]

/-- What the loop appends: positions and operations whose tickets are, in order, entries
of the ranking, and the tickets of a prefix of the ranking in `visited`. -/
theorem rankingLoop_shape (portfolio : List Position) (prices : Prices) (target : ℚ)
    (ranking : List String) (s : LoopState) :
    ∃ (lb : List Position) (lo : List Operation) (k : ℕ),
      (rankingLoop portfolio prices target ranking s).balanced = s.balanced ++ lb ∧
      (rankingLoop portfolio prices target ranking s).operations = s.operations ++ lo ∧
      (rankingLoop portfolio prices target ranking s).visited = s.visited ++ ranking.take k ∧
      (lb.map Position.Ticket).Sublist ranking ∧
      (lo.map Operation.Ticket).Sublist ranking := by
  induction ranking generalizing s with
  | nil => exact ⟨[], [], 0, by simp [rankingLoop]⟩
  | cons t rest ih =>
    by_cases h : s.finalBalance = 0
    · exact ⟨[], [], 0, by simp [rankingLoop, h]⟩
    · obtain ⟨lb, lo, k, hb, ho, hv, hsb, hso⟩ := ih (iteration portfolio prices target t s)
      rw [iteration_visited] at hv
      rcases iteration_shape portfolio prices target t s with ⟨a, op, -, eb, eo⟩ | ⟨eb, eo⟩
      · rw [eb] at hb
        rw [eo] at ho
        refine ⟨⟨t, a⟩ :: lb,
          ⟨op, t, operationAmount portfolio prices target s.finalBalance t⟩ :: lo, k + 1,
          ?_, ?_, ?_, ?_, ?_⟩
        · simpa [rankingLoop, h] using hb
        · simpa [rankingLoop, h] using ho
        · simpa [rankingLoop, h] using hv
        · simpa using hsb
        · simpa using hso
      · rw [eb] at hb
        rw [eo] at ho
        refine ⟨lb, lo, k + 1, ?_, ?_, ?_, ?_, ?_⟩
        · simpa [rankingLoop, h] using hb
        · simpa [rankingLoop, h] using ho
        · simpa [rankingLoop, h] using hv
        · exact hsb.trans (List.sublist_cons_self _ _)
        · exact hso.trans (List.sublist_cons_self _ _)

/-- The liquidation pass appends one full sell per position whose ticket is not visited. -/
theorem liquidate_eq (visited : List String) (portfolio : List Position)
    (operations : List Operation) :
    liquidate visited portfolio operations
      = operations ++ (portfolio.filter (fun q => !decide (q.Ticket ∈ visited))).map
          (fun q => ({ Op := "sell", Ticket := q.Ticket, Amount := q.Amount } : Operation)) := by
  induction portfolio generalizing operations with
  | nil => simp [liquidate]
  | cons p rest ih =>
    by_cases h : p.Ticket ∈ visited
    · simp [liquidate, h, ih]
    · simp [liquidate, h, ih]

/-- Among the liquidation sells, those of a ticket that is not visited are the full sells
of the positions that hold it. -/
theorem liquidation_filter (visited : List String) (portfolio : List Position) (t : String)
    (h : t ∉ visited) :
    (((portfolio.filter (fun q => !decide (q.Ticket ∈ visited))).map
        (fun q => ({ Op := "sell", Ticket := q.Ticket, Amount := q.Amount } : Operation))).filter
          (fun o => decide (o.Ticket = t)))
      = (portfolio.filter (fun q => decide (q.Ticket = t))).map
          (fun q => ({ Op := "sell", Ticket := q.Ticket, Amount := q.Amount } : Operation)) := by
  induction portfolio with
  | nil => rfl
  | cons p rest ih =>
    by_cases hv : p.Ticket ∈ visited
    · have hne : p.Ticket ≠ t := fun e => h (e ▸ hv)
      simp [List.filter_cons, hv, hne, ih]
    · by_cases ht : p.Ticket = t
      · simp [List.filter_cons, hv, ht, h, ih]
      · simp [List.filter_cons, hv, ht, ih]

/-- No element of a list of operations whose tickets all lie in `l` is for a ticket
outside `l`. -/
theorem filter_ticket_eq_nil (lo : List Operation) (l : List String) (t : String)
    (hsub : ∀ o ∈ lo, o.Ticket ∈ l) (ht : t ∉ l) :
    lo.filter (fun o => decide (o.Ticket = t)) = [] := by
  rw [List.filter_eq_nil_iff]
  intro o ho
  have := hsub o ho
  simp only [decide_eq_true_eq]
  intro e
  exact ht (e ▸ this)

/-- In a portfolio without a repeated ticket, a position is the only one with its ticket. -/
theorem filter_ticket_of_nodup (portfolio : List Position) (p : Position)
    (hnd : (portfolio.map Position.Ticket).Nodup) (hp : p ∈ portfolio) :
    portfolio.filter (fun q => decide (q.Ticket = p.Ticket)) = [p] := by
  induction portfolio with
  | nil => cases hp
  | cons q rest ih =>
    rw [List.map_cons, List.nodup_cons] at hnd
    rcases List.mem_cons.1 hp with rfl | hmem
    · have : rest.filter (fun q => decide (q.Ticket = p.Ticket)) = [] := by
        rw [List.filter_eq_nil_iff]
        intro r hr
        simp only [decide_eq_true_eq]
        intro e
        exact hnd.1 (e ▸ List.mem_map_of_mem _ hr)
      simp [List.filter_cons, this]
    · have hne : q.Ticket ≠ p.Ticket := fun e =>
        hnd.1 (e ▸ List.mem_map_of_mem _ hmem)
      simp [List.filter_cons, hne, ih hnd.2 hmem]

/-! ## Scenarios evaluated on the code -/

/-- C1: portfolio [{AAA,100}], ranking ["AAA","BBB"], cash 1000, prices {AAA:10, BBB:20}:
`distribute` returns the balanced portfolio [{AAA,100},{BBB,50}] and the operations
[buy AAA 0, buy BBB 50], in that order. -/
theorem scenario_two_tickets :
    distribute [⟨"AAA", 100⟩] ["AAA", "BBB"] 1000 pricesAB
      = ([⟨"AAA", 100⟩, ⟨"BBB", 50⟩], [⟨"buy", "AAA", 0⟩, ⟨"buy", "BBB", 50⟩]) := by
  have h1 : ("AAA" = "BBB") = False := by decide
  have h2 : ("BBB" = "AAA") = False := by decide
  norm_num [distribute, loopResult, rankingLoop, iteration, initialState, targetValue,
    getPortfolioValue, getPrice, getAmount, pricesAB, operationAmount, operationValue,
    unroundedAmount, required, mathMod, trunc, liquidate, h1, h2]

/-- C2, the code at a failing input: portfolio [{AAA,100}], ranking ["AAA","BBB"], cash 0,
prices {AAA:10, BBB:20}.  AAA is worth 1000, above the target 500, and its share count is
50, below 100: neither branch of the loop body matches, so AAA gets no operation and also
no position in the balanced portfolio, which is [{BBB,25}] only. -/
theorem overweight_small_lot_is_dropped :
    getPrice pricesAB "AAA" * getAmount [⟨"AAA", 100⟩] "AAA"
        > targetValue [⟨"AAA", 100⟩] ["AAA", "BBB"] 0 pricesAB ∧
      operationAmount [⟨"AAA", 100⟩] pricesAB
        (targetValue [⟨"AAA", 100⟩] ["AAA", "BBB"] 0 pricesAB)
        (initialState [⟨"AAA", 100⟩] 0 pricesAB).finalBalance "AAA" = 50 ∧
      distribute [⟨"AAA", 100⟩] ["AAA", "BBB"] 0 pricesAB
        = ([⟨"BBB", 25⟩], [⟨"buy", "BBB", 25⟩]) := by
  have h1 : ("AAA" = "BBB") = False := by decide
  have h2 : ("BBB" = "AAA") = False := by decide
  refine ⟨?_, ?_, ?_⟩ <;>
  norm_num [distribute, loopResult, rankingLoop, iteration, initialState, targetValue,
    getPortfolioValue, getPrice, getAmount, pricesAB, operationAmount, operationValue,
    unroundedAmount, required, mathMod, trunc, liquidate, h1, h2]

/-! ## Tickers of the outputs -/

/-- C5: every ticker of a position of the balanced portfolio returned by `distribute` is an
element of the ranking, whatever the portfolio, the ranking, the cash and the prices. -/
theorem balanced_tickers_in_ranking (portfolio : List Position) (ranking : List String)
    (money : ℚ) (prices : Prices) :
    ∀ p ∈ (distribute portfolio ranking money prices).1, p.Ticket ∈ ranking := by
  intro p hp
  obtain ⟨lb, lo, k, hb, -, -, hsb, -⟩ :=
    rankingLoop_shape portfolio prices (targetValue portfolio ranking money prices) ranking
      (initialState portfolio money prices)
  have hp2 : p ∈ lb := by
    have : (distribute portfolio ranking money prices).1 = lb := by
      simpa [distribute, loopResult, initialState] using hb
    rwa [this] at hp
  exact hsb.subset (List.mem_map_of_mem _ hp2)

/-- C5 at the two-ticket scenario: the position {BBB,50} of the balanced portfolio has its
ticker in the ranking ["AAA","BBB"]. -/
theorem balanced_tickers_in_ranking_witness :
    (⟨"BBB", 50⟩ : Position) ∈ (distribute [⟨"AAA", 100⟩] ["AAA", "BBB"] 1000 pricesAB).1 ∧
      (⟨"BBB", 50⟩ : Position).Ticket ∈ ["AAA", "BBB"] :=
  have hmem : (⟨"BBB", 50⟩ : Position)
      ∈ (distribute [⟨"AAA", 100⟩] ["AAA", "BBB"] 1000 pricesAB).1 := by
    have h1 : ("AAA" = "BBB") = False := by decide
    have h2 : ("BBB" = "AAA") = False := by decide
    norm_num [distribute, loopResult, rankingLoop, iteration, initialState, targetValue,
      getPortfolioValue, getPrice, getAmount, pricesAB, operationAmount, operationValue,
      unroundedAmount, required, mathMod, trunc, h1, h2]
  ⟨hmem, balanced_tickers_in_ranking [⟨"AAA", 100⟩] ["AAA", "BBB"] 1000 pricesAB
    ⟨"BBB", 50⟩ hmem⟩

/-- C4: when no ticker is repeated in the portfolio, a position of the portfolio whose
ticker is absent from the ranking gets exactly one operation, the sell of its whole amount,
and its ticker is absent from the balanced portfolio. -/
theorem unranked_holding_is_liquidated (portfolio : List Position) (ranking : List String)
    (money : ℚ) (prices : Prices) (p : Position)
    (hnd : (portfolio.map Position.Ticket).Nodup) (hp : p ∈ portfolio)
    (hr : p.Ticket ∉ ranking) :
    (distribute portfolio ranking money prices).2.filter (fun o => decide (o.Ticket = p.Ticket))
        = [⟨"sell", p.Ticket, p.Amount⟩] ∧
      p.Ticket ∉ (distribute portfolio ranking money prices).1.map Position.Ticket := by
  obtain ⟨lb, lo, k, hb, ho, hv, hsb, hso⟩ :=
    rankingLoop_shape portfolio prices (targetValue portfolio ranking money prices) ranking
      (initialState portfolio money prices)
  have hb2 : (loopResult portfolio ranking money prices).balanced = lb := by
    simpa [loopResult, initialState] using hb
  have ho2 : (loopResult portfolio ranking money prices).operations = lo := by
    simpa [loopResult, initialState] using ho
  have hv2 : (loopResult portfolio ranking money prices).visited = ranking.take k := by
    simpa [loopResult, initialState] using hv
  have hnv : p.Ticket ∉ (loopResult portfolio ranking money prices).visited := by
    rw [hv2]
    exact fun h => hr (List.mem_of_mem_take h)
  constructor
  · have hlo : lo.filter (fun o => decide (o.Ticket = p.Ticket)) = [] :=
      filter_ticket_eq_nil lo ranking p.Ticket
        (fun o h => hso.subset (List.mem_map_of_mem _ h)) hr
    simp only [distribute]
    rw [liquidate_eq, List.filter_append, ho2, hlo, liquidation_filter _ _ _ hnv,
      filter_ticket_of_nodup portfolio p hnd hp]
    rfl
  · simp only [distribute]
    rw [hb2]
    exact fun h => hr (hsb.subset h)

/-- C4 at the portfolio [{AAA,100},{ZZZ,30}] with ZZZ absent from the ranking
["AAA","BBB"]: exactly `sell ZZZ 30`, and no ZZZ in the balanced portfolio. -/
theorem unranked_holding_is_liquidated_witness :
    (distribute [⟨"AAA", 100⟩, ⟨"ZZZ", 30⟩] ["AAA", "BBB"] 1000 pricesAB).2.filter
          (fun o => decide (o.Ticket = "ZZZ"))
        = [⟨"sell", "ZZZ", 30⟩] ∧
      "ZZZ" ∉ (distribute [⟨"AAA", 100⟩, ⟨"ZZZ", 30⟩] ["AAA", "BBB"] 1000 pricesAB).1.map
        Position.Ticket :=
  unranked_holding_is_liquidated [⟨"AAA", 100⟩, ⟨"ZZZ", 30⟩] ["AAA", "BBB"] 1000 pricesAB
    ⟨"ZZZ", 30⟩ (by decide) (by simp) (by decide)

/-- C8 as stated fails: ranking ["AAA","AAA"] (non-empty), cash 1000, empty portfolio (no
repeated ticker), prices {AAA:10, BBB:20}: the balanced portfolio is [{AAA,50},{AAA,50}],
with AAA twice. -/
theorem repeated_ranking_entry_repeats_position :
    (["AAA", "AAA"] : List String) ≠ [] ∧ (0 : ℚ) ≤ 1000 ∧
      (([] : List Position).map Position.Ticket).Nodup ∧
      (distribute [] ["AAA", "AAA"] 1000 pricesAB).1 = [⟨"AAA", 50⟩, ⟨"AAA", 50⟩] ∧
      ¬ ((distribute [] ["AAA", "AAA"] 1000 pricesAB).1.map Position.Ticket).Nodup := by
  have h : (distribute [] ["AAA", "AAA"] 1000 pricesAB).1
      = [⟨"AAA", 50⟩, ⟨"AAA", 50⟩] := by
    norm_num [distribute, loopResult, rankingLoop, iteration, initialState, targetValue,
      getPortfolioValue, getPrice, getAmount, pricesAB, operationAmount, operationValue,
      unroundedAmount, required, mathMod, trunc, liquidate]
  refine ⟨by simp, by norm_num, by simp, h, ?_⟩
  rw [h]
  simp

/-- C8 amended: when the ranking has no repeated ticker, no ticker occurs twice in the
balanced portfolio returned by `distribute`. -/
theorem balanced_nodup_of_ranking_nodup (portfolio : List Position) (ranking : List String)
    (money : ℚ) (prices : Prices) (hnd : ranking.Nodup) :
    ((distribute portfolio ranking money prices).1.map Position.Ticket).Nodup := by
  obtain ⟨lb, lo, k, hb, -, -, hsb, -⟩ :=
    rankingLoop_shape portfolio prices (targetValue portfolio ranking money prices) ranking
      (initialState portfolio money prices)
  have : (distribute portfolio ranking money prices).1 = lb := by
    simpa [distribute, loopResult, initialState] using hb
  rw [this]
  exact hnd.sublist hsb

/-- C8 amended, at the ranking ["AAA","BBB"] of the two-ticket scenario. -/
theorem balanced_nodup_of_ranking_nodup_witness :
    (["AAA", "BBB"] : List String).Nodup ∧
      ((distribute [⟨"AAA", 100⟩] ["AAA", "BBB"] 1000 pricesAB).1.map Position.Ticket).Nodup :=
  ⟨by decide, balanced_nodup_of_ranking_nodup [⟨"AAA", 100⟩] ["AAA", "BBB"] 1000 pricesAB
    (by decide)⟩

/-! ## Budget exhaustion -/

/-- C9 as stated fails: portfolio [{AAA,100}], ranking ["BBB","AAA"], cash 0, no price
known.  The budget is 0 when the first entry is reached, so the loop stops there; AAA, a
later entry that is held, is given the liquidation sell `sell AAA 100`. -/
theorem held_unreached_ticker_is_sold :
    (initialState [⟨"AAA", 100⟩] 0 (fun _ => none)).finalBalance = 0 ∧
      (loopResult [⟨"AAA", 100⟩] ["BBB", "AAA"] 0 (fun _ => none)).visited = [] ∧
      (distribute [⟨"AAA", 100⟩] ["BBB", "AAA"] 0 (fun _ => none)).2
        = [⟨"sell", "AAA", 100⟩] := by
  refine ⟨?_, ?_, ?_⟩ <;>
  norm_num [distribute, loopResult, rankingLoop, initialState, getPortfolioValue, getPrice,
    liquidate]

/-- C9 amended: let the ranking be `pre ++ rest` with the budget at 0 once the loop has
gone through `pre`, so that the loop stops at the first entry of `rest` at the latest.  A
ticker `t` that is not in `pre` (so every entry of `rest` that does not occur earlier) is
never visited, gets no operation from the ranking loop and no position in the balanced
portfolio; the operations returned for `t` are exactly the liquidation sells of the whole
amount of each position holding `t`: none when `t` is not held. -/
theorem unreached_ticker_operations (portfolio : List Position) (ranking : List String)
    (money : ℚ) (prices : Prices) (pre rest : List String) (t : String)
    (hsplit : ranking = pre ++ rest)
    (hzero : (rankingLoop portfolio prices (targetValue portfolio ranking money prices) pre
      (initialState portfolio money prices)).finalBalance = 0)
    (hpre : t ∉ pre) :
    t ∉ (loopResult portfolio ranking money prices).visited ∧
      (∀ o ∈ (loopResult portfolio ranking money prices).operations, o.Ticket ≠ t) ∧
      t ∉ (distribute portfolio ranking money prices).1.map Position.Ticket ∧
      (distribute portfolio ranking money prices).2.filter (fun o => decide (o.Ticket = t))
        = (portfolio.filter (fun q => decide (q.Ticket = t))).map
            (fun q => ({ Op := "sell", Ticket := q.Ticket, Amount := q.Amount } : Operation)) := by
  subst hsplit
  have hloop : loopResult portfolio (pre ++ rest) money prices
      = rankingLoop portfolio prices (targetValue portfolio (pre ++ rest) money prices) pre
          (initialState portfolio money prices) := by
    unfold loopResult
    rw [rankingLoop_append]
    exact rankingLoop_of_zero _ _ _ _ _ hzero
  obtain ⟨lb, lo, k, hb, ho, hv, hsb, hso⟩ :=
    rankingLoop_shape portfolio prices (targetValue portfolio (pre ++ rest) money prices) pre
      (initialState portfolio money prices)
  rw [← hloop] at hb ho hv
  have hb2 : (loopResult portfolio (pre ++ rest) money prices).balanced = lb := by
    simpa [initialState] using hb
  have ho2 : (loopResult portfolio (pre ++ rest) money prices).operations = lo := by
    simpa [initialState] using ho
  have hv2 : (loopResult portfolio (pre ++ rest) money prices).visited = pre.take k := by
    simpa [initialState] using hv
  have hnv : t ∉ (loopResult portfolio (pre ++ rest) money prices).visited := by
    rw [hv2]
    exact fun h => hpre (List.mem_of_mem_take h)
  have hops : ∀ o ∈ lo, o.Ticket ∈ pre := fun o h => hso.subset (List.mem_map_of_mem _ h)
  refine ⟨hnv, ?_, ?_, ?_⟩
  · rw [ho2]
    intro o ho3 e
    exact hpre (e ▸ hops o ho3)
  · simp only [distribute]
    rw [hb2]
    exact fun h => hpre (hsb.subset h)
  · simp only [distribute]
    rw [liquidate_eq, List.filter_append, ho2, filter_ticket_eq_nil lo pre t hops hpre,
      liquidation_filter _ _ _ hnv]
    rfl

/-- C9 amended, at portfolio [{AAA,100}], ranking ["BBB","AAA"], cash 0 and no price known:
the unreached AAA is sold whole. -/
theorem unreached_ticker_operations_witness :
    (distribute [⟨"AAA", 100⟩] ["BBB", "AAA"] 0 (fun _ => none)).2.filter
        (fun o => decide (o.Ticket = "AAA"))
      = [⟨"sell", "AAA", 100⟩] :=
  (unreached_ticker_operations [⟨"AAA", 100⟩] ["BBB", "AAA"] 0 (fun _ => none) []
    ["BBB", "AAA"] "AAA" rfl
    (by norm_num [rankingLoop, initialState, getPortfolioValue, getPrice])
    (by simp)).2.2.2

/-! ## Arithmetic of one iteration -/

/-- The value of a portfolio is the sum of the values of its positions. -/
theorem getPortfolioValue_eq_sum (portfolio : List Position) (prices : Prices) :
    getPortfolioValue portfolio prices
      = (portfolio.map (fun p => getPrice prices p.Ticket * p.Amount)).sum := by
  have key : ∀ (l : List Position) (acc : ℚ),
      l.foldl (fun sum p => sum + getPrice prices p.Ticket * p.Amount) acc
        = acc + (l.map (fun p => getPrice prices p.Ticket * p.Amount)).sum := by
    intro l
    induction l with
    | nil => intro acc; simp
    | cons p rest ih => intro acc; simp [List.foldl_cons, ih, add_assoc]
  simpa [getPortfolioValue] using key portfolio 0

/-- A portfolio with non-negative amounts and non-negative prices has a non-negative
value. -/
theorem getPortfolioValue_nonneg (portfolio : List Position) (prices : Prices)
    (hamt : ∀ p ∈ portfolio, 0 ≤ p.Amount)
    (hprice : ∀ p ∈ portfolio, 0 ≤ getPrice prices p.Ticket) :
    0 ≤ getPortfolioValue portfolio prices := by
  rw [getPortfolioValue_eq_sum]
  apply List.sum_nonneg
  intro x hx
  obtain ⟨p, hp, rfl⟩ := List.mem_map.1 hx
  exact mul_nonneg (hprice p hp) (hamt p hp)

/-- The held amount of a ticket is non-negative when all amounts are. -/
theorem getAmount_nonneg (portfolio : List Position) (ticket : String)
    (hamt : ∀ p ∈ portfolio, 0 ≤ p.Amount) : 0 ≤ getAmount portfolio ticket := by
  induction portfolio with
  | nil => simp [getAmount]
  | cons p rest ih =>
    unfold getAmount
    split_ifs
    · exact hamt p (List.mem_cons_self _ _)
    · exact ih (fun q hq => hamt q (List.mem_cons_of_mem _ hq))

/-- The clamp of `required` is a minimum. -/
theorem required_eq_min (portfolio : List Position) (prices : Prices) (target finalBalance : ℚ)
    (ticket : String) :
    required portfolio prices target finalBalance ticket
      = min |target - getPrice prices ticket * getAmount portfolio ticket| finalBalance := by
  unfold required
  dsimp only
  split_ifs with h
  · exact (min_eq_right h.le).symm
  · exact (min_eq_left (not_lt.1 h)).symm

/-- On an integer above 100, subtracting `math.Mod(·, 100)` leaves `100 * (n / 100)`. -/
theorem sub_mathMod_hundred (n : ℤ) (hn : 0 ≤ n) :
    (n : ℚ) - mathMod (n : ℚ) 100 = ((100 * (n / 100) : ℤ) : ℚ) := by
  have hq : (0 : ℚ) ≤ (n : ℚ) / 100 := div_nonneg (by exact_mod_cast hn) (by norm_num)
  have hfloor : ⌊(n : ℚ) / 100⌋ = n / 100 := by
    have := Rat.floor_intCast_div_natCast n 100
    simpa using this
  unfold mathMod trunc
  rw [if_pos hq, hfloor]
  push_cast
  ring

/-- The amount after the rounding to lots, in terms of the amount before it. -/
theorem operationAmount_eq (portfolio : List Position) (prices : Prices)
    (target finalBalance : ℚ) (ticket : String) :
    operationAmount portfolio prices target finalBalance ticket
      = if 100 < unroundedAmount portfolio prices target finalBalance ticket
        then ((100 * (unroundedAmount portfolio prices target finalBalance ticket / 100) : ℤ) : ℚ)
        else (unroundedAmount portfolio prices target finalBalance ticket : ℚ) := by
  unfold operationAmount
  dsimp only
  by_cases h : 100 < unroundedAmount portfolio prices target finalBalance ticket
  · have hq : ((unroundedAmount portfolio prices target finalBalance ticket : ℤ) : ℚ) > 100 := by
      exact_mod_cast h
    rw [if_pos hq, if_pos h, sub_mathMod_hundred _ (by omega)]
  · have hq : ¬ ((unroundedAmount portfolio prices target finalBalance ticket : ℤ) : ℚ) > 100 := by
      intro hq
      exact h (by exact_mod_cast hq)
    rw [if_neg hq, if_neg h]

/-- With a non-negative budget and a positive price, the rounded amount is non-negative,
at most the unrounded one, and its cost is at most `required`. -/
theorem operationAmount_bounds (portfolio : List Position) (prices : Prices)
    (target finalBalance : ℚ) (ticket : String) (hfb : 0 ≤ finalBalance)
    (hprice : 0 < getPrice prices ticket) :
    0 ≤ operationAmount portfolio prices target finalBalance ticket ∧
      operationAmount portfolio prices target finalBalance ticket * getPrice prices ticket
        ≤ required portfolio prices target finalBalance ticket := by
  have hreq : 0 ≤ required portfolio prices target finalBalance ticket := by
    rw [required_eq_min]
    exact le_min (abs_nonneg _) hfb
  have hn : 0 ≤ unroundedAmount portfolio prices target finalBalance ticket :=
    Int.floor_nonneg.2 (div_nonneg hreq hprice.le)
  have hnle : (unroundedAmount portfolio prices target finalBalance ticket : ℚ)
      ≤ required portfolio prices target finalBalance ticket / getPrice prices ticket :=
    Int.floor_le _
  have hle : operationAmount portfolio prices target finalBalance ticket
      ≤ (unroundedAmount portfolio prices target finalBalance ticket : ℚ) := by
    rw [operationAmount_eq]
    split_ifs
    · exact_mod_cast (by omega :
        100 * (unroundedAmount portfolio prices target finalBalance ticket / 100)
          ≤ unroundedAmount portfolio prices target finalBalance ticket)
    · exact le_rfl
  have h0 : 0 ≤ operationAmount portfolio prices target finalBalance ticket := by
    rw [operationAmount_eq]
    split_ifs
    · exact_mod_cast (by omega :
        0 ≤ 100 * (unroundedAmount portfolio prices target finalBalance ticket / 100))
    · exact_mod_cast hn
  refine ⟨h0, ?_⟩
  calc operationAmount portfolio prices target finalBalance ticket * getPrice prices ticket
      ≤ (required portfolio prices target finalBalance ticket / getPrice prices ticket)
          * getPrice prices ticket :=
        mul_le_mul_of_nonneg_right (hle.trans hnle) hprice.le
    _ = required portfolio prices target finalBalance ticket :=
        div_mul_cancel₀ _ hprice.ne.symm

/-- The value of the trade is an integer between 0 and `required`. -/
theorem operationValue_bounds (portfolio : List Position) (prices : Prices)
    (target finalBalance : ℚ) (ticket : String) (hfb : 0 ≤ finalBalance)
    (hprice : 0 < getPrice prices ticket) :
    0 ≤ operationValue portfolio prices target finalBalance ticket ∧
      operationValue portfolio prices target finalBalance ticket
        ≤ required portfolio prices target finalBalance ticket := by
  obtain ⟨h0, hle⟩ := operationAmount_bounds portfolio prices target finalBalance ticket hfb hprice
  unfold operationValue
  constructor
  · exact_mod_cast Int.floor_nonneg.2 (mul_nonneg h0 hprice.le)
  · exact (Int.floor_le _).trans hle

/-- One iteration with a non-negative target, a positive price and a non-negative held
amount keeps the budget non-negative, lowers it by at most `target`, and keeps every
amount non-negative, a sell being at most the held amount. -/
theorem iteration_nonneg (portfolio : List Position) (prices : Prices) (target : ℚ)
    (ticket : String) (s : LoopState) (htarget : 0 ≤ target)
    (hprice : 0 < getPrice prices ticket) (hamt : 0 ≤ getAmount portfolio ticket)
    (hfb : 0 ≤ s.finalBalance) (hb : ∀ p ∈ s.balanced, 0 ≤ p.Amount)
    (ho : ∀ o ∈ s.operations,
      0 ≤ o.Amount ∧ (o.Op = "sell" → o.Amount ≤ getAmount portfolio o.Ticket)) :
    0 ≤ (iteration portfolio prices target ticket s).finalBalance ∧
      s.finalBalance - target ≤ (iteration portfolio prices target ticket s).finalBalance ∧
      (∀ p ∈ (iteration portfolio prices target ticket s).balanced, 0 ≤ p.Amount) ∧
      (∀ o ∈ (iteration portfolio prices target ticket s).operations,
        0 ≤ o.Amount ∧ (o.Op = "sell" → o.Amount ≤ getAmount portfolio o.Ticket)) := by
  obtain ⟨ha0, hacost⟩ :=
    operationAmount_bounds portfolio prices target s.finalBalance ticket hfb hprice
  obtain ⟨hv0, hvle⟩ :=
    operationValue_bounds portfolio prices target s.finalBalance ticket hfb hprice
  have hreq := required_eq_min portfolio prices target s.finalBalance ticket
  have hcv : 0 ≤ getPrice prices ticket * getAmount portfolio ticket :=
    mul_nonneg hprice.le hamt
  unfold iteration
  dsimp only
  split_ifs with hsell hbuy
  · -- sell
    have habs : |target - getPrice prices ticket * getAmount portfolio ticket|
        = getPrice prices ticket * getAmount portfolio ticket - target := by
      rw [abs_of_nonpos (by linarith [hsell.1])]
      ring
    have hle : operationAmount portfolio prices target s.finalBalance ticket
        ≤ getAmount portfolio ticket := by
      have h1 : operationAmount portfolio prices target s.finalBalance ticket
          * getPrice prices ticket ≤ getAmount portfolio ticket * getPrice prices ticket := by
        rw [hreq] at hacost
        have := hacost.trans (min_le_left _ _)
        rw [habs] at this
        linarith
      exact le_of_mul_le_mul_right h1 hprice
    refine ⟨by dsimp only; linarith, by dsimp only; linarith, ?_, ?_⟩
    · intro p hp
      rcases List.mem_append.1 hp with h | h
      · exact hb p h
      · rw [List.mem_singleton] at h
        subst h
        dsimp only
        linarith
    · intro o hop
      rcases List.mem_append.1 hop with h | h
      · exact ho o h
      · rw [List.mem_singleton] at h
        subst h
        exact ⟨ha0, fun _ => hle⟩
  · -- buy
    have habs : |target - getPrice prices ticket * getAmount portfolio ticket|
        = target - getPrice prices ticket * getAmount portfolio ticket :=
      abs_of_nonneg (by linarith)
    have h1 : operationValue portfolio prices target s.finalBalance ticket ≤ s.finalBalance := by
      rw [hreq] at hvle
      exact hvle.trans (min_le_right _ _)
    have h2 : operationValue portfolio prices target s.finalBalance ticket ≤ target := by
      rw [hreq] at hvle
      have := hvle.trans (min_le_left _ _)
      rw [habs] at this
      linarith
    refine ⟨by dsimp only; linarith, by dsimp only; linarith, ?_, ?_⟩
    · intro p hp
      rcases List.mem_append.1 hp with h | h
      · exact hb p h
      · rw [List.mem_singleton] at h
        subst h
        dsimp only
        linarith
    · intro o hop
      rcases List.mem_append.1 hop with h | h
      · exact ho o h
      · rw [List.mem_singleton] at h
        subst h
        exact ⟨ha0, fun hs => absurd (show "buy" = "sell" from hs) (by decide)⟩
  · -- neither
    exact ⟨hfb, by dsimp only; linarith, hb, ho⟩

/-- The ranking loop, run over tickers with a positive price, keeps the budget
non-negative and at least `finalBalance - target * (number of entries)`, and keeps every
amount non-negative, a sell being at most the held amount. -/
theorem rankingLoop_nonneg (portfolio : List Position) (prices : Prices) (target : ℚ)
    (htarget : 0 ≤ target) (hamt : ∀ p ∈ portfolio, 0 ≤ p.Amount)
    (ranking : List String) (hprice : ∀ t ∈ ranking, 0 < getPrice prices t)
    (s : LoopState) (hfb : 0 ≤ s.finalBalance) (hb : ∀ p ∈ s.balanced, 0 ≤ p.Amount)
    (ho : ∀ o ∈ s.operations,
      0 ≤ o.Amount ∧ (o.Op = "sell" → o.Amount ≤ getAmount portfolio o.Ticket)) :
    0 ≤ (rankingLoop portfolio prices target ranking s).finalBalance ∧
      s.finalBalance - target * (ranking.length : ℚ)
        ≤ (rankingLoop portfolio prices target ranking s).finalBalance ∧
      (∀ p ∈ (rankingLoop portfolio prices target ranking s).balanced, 0 ≤ p.Amount) ∧
      (∀ o ∈ (rankingLoop portfolio prices target ranking s).operations,
        0 ≤ o.Amount ∧ (o.Op = "sell" → o.Amount ≤ getAmount portfolio o.Ticket)) := by
  induction ranking generalizing s with
  | nil => exact ⟨hfb, by simp [rankingLoop], hb, ho⟩
  | cons t rest ih =>
    by_cases h : s.finalBalance = 0
    · have hpos : 0 ≤ target * ((t :: rest).length : ℚ) :=
        mul_nonneg htarget (Nat.cast_nonneg _)
      simp only [rankingLoop, h, if_true]
      exact ⟨le_rfl, by linarith, hb, ho⟩
    · obtain ⟨h1, h2, h3, h4⟩ := iteration_nonneg portfolio prices target t s htarget
        (hprice t (List.mem_cons_self _ _)) (getAmount_nonneg portfolio t hamt) hfb hb ho
      obtain ⟨i1, i2, i3, i4⟩ := ih (fun u hu => hprice u (List.mem_cons_of_mem _ hu))
        (iteration portfolio prices target t s) h1 h3 h4
      simp only [rankingLoop, h, if_false]
      refine ⟨i1, ?_, i3, i4⟩
      have : ((t :: rest).length : ℚ) = (rest.length : ℚ) + 1 := by simp
      rw [this]
      linarith

/-- The target of `distribute` is non-negative when the total value is. -/
theorem targetValue_nonneg (portfolio : List Position) (ranking : List String) (money : ℚ)
    (prices : Prices) (h : 0 ≤ money + getPortfolioValue portfolio prices) :
    0 ≤ targetValue portfolio ranking money prices :=
  div_nonneg h (Nat.cast_nonneg _)

/-! ## No negative quantity -/

/-- C3: when all held amounts and the cash are non-negative and every held and every
ranked ticker has a strictly positive price, every operation returned by `distribute` and
every position of the balanced portfolio has a non-negative amount, and a sell emitted by
the ranking loop is at most the held amount of its ticker.  (The ranking may even be
empty: the loop does not run then.) -/
theorem no_negative_quantity (portfolio : List Position) (ranking : List String) (money : ℚ)
    (prices : Prices) (hamt : ∀ p ∈ portfolio, 0 ≤ p.Amount) (hmoney : 0 ≤ money)
    (hheld : ∀ p ∈ portfolio, 0 < getPrice prices p.Ticket)
    (hranked : ∀ t ∈ ranking, 0 < getPrice prices t) :
    (∀ o ∈ (distribute portfolio ranking money prices).2, 0 ≤ o.Amount) ∧
      (∀ p ∈ (distribute portfolio ranking money prices).1, 0 ≤ p.Amount) ∧
      (∀ o ∈ (loopResult portfolio ranking money prices).operations,
        o.Op = "sell" → o.Amount ≤ getAmount portfolio o.Ticket) := by
  have hval : 0 ≤ getPortfolioValue portfolio prices :=
    getPortfolioValue_nonneg portfolio prices hamt (fun p hp => (hheld p hp).le)
  have htotal : 0 ≤ money + getPortfolioValue portfolio prices := add_nonneg hmoney hval
  obtain ⟨-, -, h3, h4⟩ := rankingLoop_nonneg portfolio prices
    (targetValue portfolio ranking money prices)
    (targetValue_nonneg portfolio ranking money prices htotal) hamt ranking hranked
    (initialState portfolio money prices) htotal (by simp [initialState])
    (by simp [initialState])
  refine ⟨?_, h3, fun o ho => (h4 o ho).2⟩
  intro o ho
  simp only [distribute] at ho
  rw [liquidate_eq] at ho
  rcases List.mem_append.1 ho with h | h
  · exact (h4 o h).1
  · obtain ⟨q, hq, rfl⟩ := List.mem_map.1 h
    exact hamt q (List.mem_of_mem_filter hq)

/-- C3 at the two-ticket scenario. -/
theorem no_negative_quantity_witness :
    (∀ o ∈ (distribute [⟨"AAA", 100⟩] ["AAA", "BBB"] 1000 pricesAB).2, 0 ≤ o.Amount) ∧
      (∀ p ∈ (distribute [⟨"AAA", 100⟩] ["AAA", "BBB"] 1000 pricesAB).1, 0 ≤ p.Amount) ∧
      (∀ o ∈ (loopResult [⟨"AAA", 100⟩] ["AAA", "BBB"] 1000 pricesAB).operations,
        o.Op = "sell" → o.Amount ≤ getAmount [⟨"AAA", 100⟩] o.Ticket) :=
  no_negative_quantity [⟨"AAA", 100⟩] ["AAA", "BBB"] 1000 pricesAB
    (by simp) (by norm_num) (by simp [getPrice, pricesAB])
    (by
      have h : ("BBB" = "AAA") = False := by decide
      simp [getPrice, pricesAB, h])

/-! ## Lot rounding -/

/-- C6 amended (amounts, prices and cash read as exact numbers): let an iteration of the
ranking loop, for a ticker with a positive price, emit the operation `op`, and let `n` be
the share count before rounding,
`floor (min |target - currentValue| finalBalance / price)`.  Then `op` is a buy or a sell
of that ticker; if `n > 100` its amount is `100 * (n / 100)`, the largest multiple of 100
that is at most `n`; if `n ≤ 100` its amount is `n`. -/
theorem lot_rounding (portfolio : List Position) (prices : Prices) (target : ℚ)
    (ticket : String) (s : LoopState) (op : Operation) (n : ℤ)
    (_hprice : 0 < getPrice prices ticket)
    (hop : (iteration portfolio prices target ticket s).operations = s.operations ++ [op])
    (hn : n = ⌊min |target - getPrice prices ticket * getAmount portfolio ticket| s.finalBalance
      / getPrice prices ticket⌋) :
    (op.Op = "sell" ∨ op.Op = "buy") ∧ op.Ticket = ticket ∧
      (100 < n → op.Amount = ((100 * (n / 100) : ℤ) : ℚ) ∧ op.Amount ≤ (n : ℚ) ∧
        (n : ℚ) < op.Amount + 100) ∧
      (n ≤ 100 → op.Amount = (n : ℚ)) := by
  have hn2 : unroundedAmount portfolio prices target s.finalBalance ticket = n := by
    rw [hn, unroundedAmount, required_eq_min]
  rcases iteration_shape portfolio prices target ticket s with ⟨a, name, hname, -, eo⟩ | ⟨-, eo⟩
  · rw [eo] at hop
    have hop2 := List.append_cancel_left hop
    rw [List.cons.injEq] at hop2
    have hop3 := hop2.1
    subst hop3
    refine ⟨hname, rfl, ?_, ?_⟩
    · intro h
      have hval : operationAmount portfolio prices target s.finalBalance ticket
          = ((100 * (n / 100) : ℤ) : ℚ) := by
        rw [operationAmount_eq, hn2, if_pos h]
      dsimp only
      rw [hval]
      refine ⟨rfl, ?_, ?_⟩
      · exact_mod_cast (by omega : 100 * (n / 100) ≤ n)
      · exact_mod_cast (by omega : n < 100 * (n / 100) + 100)
    · intro h
      dsimp only
      rw [operationAmount_eq, hn2, if_neg (by omega)]
  · rw [eo] at hop
    have := congrArg List.length hop
    simp at this

/-- C6 on a share count of 150: with prices {AAA:10, BBB:20}, nothing held, target 1500
and budget 3000 the loop body emits `buy AAA 100` for AAA, and 100 is `100 * (150 / 100)`. -/
theorem lot_rounding_witness :
    (⟨"buy", "AAA", 100⟩ : Operation).Amount = ((100 * ((150 : ℤ) / 100) : ℤ) : ℚ) ∧
      (⟨"buy", "AAA", 100⟩ : Operation).Amount ≤ ((150 : ℤ) : ℚ) ∧
      ((150 : ℤ) : ℚ) < (⟨"buy", "AAA", 100⟩ : Operation).Amount + 100 :=
  (lot_rounding [] pricesAB 1500 "AAA" ⟨[], [], 3000, []⟩ ⟨"buy", "AAA", 100⟩ 150
    (by norm_num [getPrice, pricesAB])
    (by norm_num [iteration, operationAmount, operationValue, unroundedAmount, required,
      getPrice, pricesAB, getAmount, mathMod, trunc])
    (by norm_num [getPrice, pricesAB, getAmount])).2.2.1 (by norm_num)

/-! ## Rounding to `float64` -/

/-- With the identity for rounding, the rounded code is the exact model. -/
theorem distributeWith_id (portfolio : List Position) (ranking : List String) (money : ℚ)
    (prices : Prices) :
    distributeWith id portfolio ranking money prices
      = distribute portfolio ranking money prices := by
  have hiter : ∀ (target : ℚ) (t : String) (s : LoopState),
      iterationWith id portfolio prices target t s = iteration portfolio prices target t s :=
    fun _ _ _ => rfl
  have hloop : ∀ (target : ℚ) (r : List String) (s : LoopState),
      rankingLoopWith id portfolio prices target r s
        = rankingLoop portfolio prices target r s := by
    intro target r
    induction r with
    | nil => intro s; rfl
    | cons t rest ih =>
      intro s
      simp only [rankingLoopWith, rankingLoop, hiter, ih]
  have hinit : initialStateWith id portfolio money prices
      = initialState portfolio money prices := rfl
  have htarget : targetValueWith id portfolio ranking money prices
      = targetValue portfolio ranking money prices := rfl
  simp only [distributeWith, distribute, loopResult, hloop, hinit, htarget]

/-- The spacing exponent of `x` in the binade `[2 ^ e, 2 ^ (e + 1))` of a normal double. -/
theorem ulpExponent_of_binade (x : ℚ) (e : ℤ) (he : -1022 ≤ e) (h1 : (2 : ℚ) ^ e ≤ |x|)
    (h2 : |x| < (2 : ℚ) ^ (e + 1)) : ulpExponent x = e - 52 := by
  have hpos : 0 < |x| := lt_of_lt_of_le (zpow_pos (by norm_num) e) h1
  have hlog : Int.log 2 |x| = e := by
    apply le_antisymm
    · have := (Int.lt_zpow_iff_log_lt (b := 2) (by norm_num) hpos).1 (by exact_mod_cast h2)
      omega
    · exact (Int.zpow_le_iff_le_log (b := 2) (by norm_num) hpos).1 (by exact_mod_cast h1)
  unfold ulpExponent
  rw [hlog, max_eq_left he]

/-- An `x` within less than half of the integer `z` above it rounds to `z`. -/
theorem roundHalfEven_of_near (x : ℚ) (z : ℤ) (h1 : (z : ℚ) ≤ x) (h2 : x - (z : ℚ) < 1 / 2) :
    roundHalfEven x = z := by
  have hf : ⌊x⌋ = z := by
    rw [Int.floor_eq_iff]
    constructor
    · exact h1
    · linarith
  unfold roundHalfEven
  rw [hf, if_pos h2]

/-- An `x` more than half above the integer `z` and at most `z + 1` rounds to `z + 1`. -/
theorem roundHalfEven_of_far (x : ℚ) (z : ℤ) (h1 : 1 / 2 < x - (z : ℚ)) (h2 : x < (z : ℚ) + 1) :
    roundHalfEven x = z + 1 := by
  have hf : ⌊x⌋ = z := by
    rw [Int.floor_eq_iff]
    constructor
    · linarith
    · exact h2
  unfold roundHalfEven
  rw [hf, if_neg (by linarith), if_pos h1]

/-- A value `m * 2 ^ (e - 52)` of the binade `[2 ^ e, 2 ^ (e + 1))`, up to less than half a
spacing above, rounds to `m * 2 ^ (e - 52)`. -/
theorem roundF64_of_near (x : ℚ) (e m : ℤ) (he : -1022 ≤ e) (h1 : (2 : ℚ) ^ e ≤ |x|)
    (h2 : |x| < (2 : ℚ) ^ (e + 1)) (h3 : (m : ℚ) ≤ x / (2 : ℚ) ^ (e - 52))
    (h4 : x / (2 : ℚ) ^ (e - 52) - (m : ℚ) < 1 / 2) :
    roundF64 x = (m : ℚ) * (2 : ℚ) ^ (e - 52) := by
  unfold roundF64
  rw [ulpExponent_of_binade x e he h1 h2, roundHalfEven_of_near _ m h3 h4]

/-- A value more than half a spacing above `m * 2 ^ (e - 52)` rounds to the next double. -/
theorem roundF64_of_far (x : ℚ) (e m : ℤ) (he : -1022 ≤ e) (h1 : (2 : ℚ) ^ e ≤ |x|)
    (h2 : |x| < (2 : ℚ) ^ (e + 1)) (h3 : 1 / 2 < x / (2 : ℚ) ^ (e - 52) - (m : ℚ))
    (h4 : x / (2 : ℚ) ^ (e - 52) < (m : ℚ) + 1) :
    roundF64 x = ((m + 1 : ℤ) : ℚ) * (2 : ℚ) ^ (e - 52) := by
  unfold roundF64
  rw [ulpExponent_of_binade x e he h1 h2, roundHalfEven_of_far _ m h3 h4]

/-- Zero is a double. -/
theorem roundF64_zero : roundF64 0 = 0 := by
  simp [roundF64, roundHalfEven]

/-- One is a double. -/
theorem roundF64_one : roundF64 1 = 1 := by
  rw [roundF64_of_near 1 0 4503599627370496 (by norm_num) (by norm_num) (by norm_num)
    (by norm_num) (by norm_num)]
  norm_num

/-- The number 1e20 is a double. -/
theorem roundF64_1e20 : roundF64 100000000000000000000 = 100000000000000000000 := by
  rw [roundF64_of_near 100000000000000000000 66 6103515625000000 (by norm_num)
    (by norm_num [abs_of_pos]) (by norm_num [abs_of_pos]) (by norm_num) (by norm_num)]
  norm_num

/-- The quotient 1e20 / 3 rounds down to 33333333333333331968, a multiple of 4096. -/
theorem roundF64_1e20_div_3 :
    roundF64 (100000000000000000000 / 3) = 33333333333333331968 := by
  rw [roundF64_of_near (100000000000000000000 / 3) 64 8138020833333333 (by norm_num)
    (by norm_num [abs_of_pos]) (by norm_num [abs_of_pos]) (by norm_num) (by norm_num)]
  norm_num

/-- Taking 68 off 33333333333333331968 rounds back to it: the spacing there is 4096. -/
theorem roundF64_lot : roundF64 (33333333333333331968 - 68) = 33333333333333331968 := by
  rw [roundF64_of_far (33333333333333331968 - 68) 64 8138020833333332 (by norm_num)
    (by norm_num [abs_of_pos]) (by norm_num [abs_of_pos]) (by norm_num) (by norm_num)]
  norm_num

/-- The number 33333333333333331968 is a double. -/
theorem roundF64_amount : roundF64 33333333333333331968 = 33333333333333331968 := by
  rw [roundF64_of_near 33333333333333331968 64 8138020833333333 (by norm_num)
    (by norm_num [abs_of_pos]) (by norm_num [abs_of_pos]) (by norm_num) (by norm_num)]
  norm_num

/-- Three times 33333333333333331968 rounds up to 1e20. -/
theorem roundF64_value : roundF64 (33333333333333331968 * 3) = 100000000000000000000 := by
  rw [roundF64_of_far (33333333333333331968 * 3) 66 6103515624999999 (by norm_num)
    (by norm_num [abs_of_pos]) (by norm_num [abs_of_pos]) (by norm_num) (by norm_num)]
  norm_num

/-- The remainder `math.Mod(33333333333333331968, 100)` is 68. -/
theorem mathMod_amount : mathMod 33333333333333331968 100 = 68 := by
  have hf : ⌊(33333333333333331968 : ℚ) / 100⌋ = 333333333333333319 := by
    rw [Int.floor_eq_iff]
    norm_num
  unfold mathMod trunc
  rw [if_pos (by norm_num), hf]
  norm_num

/-- C6 as stated fails on the `float64` arithmetic of the source: empty portfolio, ranking
["AAA"], cash 1e20, prices {AAA:3}.  The quotient 1e20 / 3 rounds to 33333333333333331968,
which is the share count before rounding (the exact quotient has floor
33333333333333333333); both are above 100.  `math.Mod` gives 68 and the subtraction rounds
back, so the loop emits `buy AAA 33333333333333331968`, which is not a multiple of 100. -/
theorem lot_rounding_fails_in_float64 :
    unroundedAmountWith roundF64 [] pricesThree
        (targetValueWith roundF64 [] ["AAA"] 100000000000000000000 pricesThree)
        (initialStateWith roundF64 [] 100000000000000000000 pricesThree).finalBalance "AAA"
        = 33333333333333331968 ∧
      unroundedAmount [] pricesThree
        (targetValue [] ["AAA"] 100000000000000000000 pricesThree)
        (initialState [] 100000000000000000000 pricesThree).finalBalance "AAA"
        = 33333333333333333333 ∧
      distributeWith roundF64 [] ["AAA"] 100000000000000000000 pricesThree
        = ([⟨"AAA", 33333333333333331968⟩], [⟨"buy", "AAA", 33333333333333331968⟩]) ∧
      ¬ ∃ k : ℤ, (33333333333333331968 : ℚ) = 100 * (k : ℚ) := by
  have hinit : (initialStateWith roundF64 [] 100000000000000000000 pricesThree).finalBalance
      = 100000000000000000000 := by
    simp [initialStateWith, getPortfolioValueWith, roundF64_1e20]
  have htarget : targetValueWith roundF64 [] ["AAA"] 100000000000000000000 pricesThree
      = 100000000000000000000 := by
    simp [targetValueWith, hinit, roundF64_one, roundF64_1e20]
  have hreq : requiredWith roundF64 [] pricesThree 100000000000000000000
      100000000000000000000 "AAA" = 100000000000000000000 := by
    simp [requiredWith, getAmount, roundF64_zero, roundF64_1e20]
  have hun : unroundedAmountWith roundF64 [] pricesThree 100000000000000000000
      100000000000000000000 "AAA" = 33333333333333331968 := by
    unfold unroundedAmountWith
    rw [hreq]
    have hp : getPrice pricesThree "AAA" = 3 := by simp [getPrice, pricesThree]
    rw [hp, roundF64_1e20_div_3]
    norm_num
  have hop : operationAmountWith roundF64 [] pricesThree 100000000000000000000
      100000000000000000000 "AAA" = 33333333333333331968 := by
    unfold operationAmountWith
    rw [hun]
    norm_num [mathMod_amount]
    have h68 : (33333333333333331900 : ℚ) = 33333333333333331968 - 68 := by norm_num
    rw [h68, roundF64_lot]
  have hval : operationValueWith roundF64 [] pricesThree 100000000000000000000
      100000000000000000000 "AAA" = 100000000000000000000 := by
    unfold operationValueWith
    rw [hop]
    have hp : getPrice pricesThree "AAA" = 3 := by simp [getPrice, pricesThree]
    rw [hp, roundF64_value]
    norm_num
  refine ⟨?_, ?_, ?_, ?_⟩
  · rw [hinit, htarget, hun]
  · have hf : ⌊(100000000000000000000 : ℚ) / 3⌋ = 33333333333333333333 := by
      rw [Int.floor_eq_iff]
      norm_num
    simp [unroundedAmount, required, targetValue, initialState, getPortfolioValue, getPrice,
      pricesThree, getAmount, hf]
  · simp only [distributeWith, rankingLoopWith, hinit, htarget, iterationWith, hop, hval]
    norm_num [getPrice, pricesThree, getAmount, roundF64_zero, roundF64_amount, liquidate,
      initialStateWith]
  · rintro ⟨k, hk⟩
    have hk2 : (33333333333333331968 : ℤ) = 100 * k := by exact_mod_cast hk
    omega

/-! ## The early exit -/

/-- With a strictly positive total value, non-negative held amounts and positive prices
on the ranking, the budget is strictly positive when any entry of the ranking is
reached. -/
theorem budget_positive_at_entry (portfolio : List Position) (ranking : List String)
    (money : ℚ) (prices : Prices) (hamt : ∀ p ∈ portfolio, 0 ≤ p.Amount)
    (hranked : ∀ t ∈ ranking, 0 < getPrice prices t)
    (htotal : 0 < money + getPortfolioValue portfolio prices)
    (pre : List String) (t : String) (post : List String) (hsplit : ranking = pre ++ t :: post) :
    0 < (rankingLoop portfolio prices (targetValue portfolio ranking money prices) pre
      (initialState portfolio money prices)).finalBalance := by
  have hlen : (ranking.length : ℚ) = (pre.length : ℚ) + 1 + (post.length : ℚ) := by
    rw [hsplit]
    simp
    ring
  have hlenpos : (0 : ℚ) < (ranking.length : ℚ) := by
    rw [hlen]
    have h1 : (0 : ℚ) ≤ (pre.length : ℚ) := Nat.cast_nonneg _
    have h2 : (0 : ℚ) ≤ (post.length : ℚ) := Nat.cast_nonneg _
    linarith
  have htpos : 0 < targetValue portfolio ranking money prices := div_pos htotal hlenpos
  have hmul : targetValue portfolio ranking money prices * (ranking.length : ℚ)
      = money + getPortfolioValue portfolio prices :=
    div_mul_cancel₀ _ hlenpos.ne.symm
  obtain ⟨-, hlow, -, -⟩ := rankingLoop_nonneg portfolio prices
    (targetValue portfolio ranking money prices) htpos.le hamt pre
    (fun u hu => hranked u (by rw [hsplit]; exact List.mem_append_left _ hu))
    (initialState portfolio money prices) htotal.le (by simp [initialState])
    (by simp [initialState])
  have hinit : (initialState portfolio money prices).finalBalance
      = money + getPortfolioValue portfolio prices := rfl
  rw [hinit, ← hmul, hlen] at hlow
  have hpost : 0 ≤ targetValue portfolio ranking money prices * (post.length : ℚ) :=
    mul_nonneg htpos.le (Nat.cast_nonneg _)
  nlinarith

/-- C10: with non-negative held amounts and cash and strictly positive prices for the held
and the ranked tickers, if the total value `cash + Σ price * amount` is strictly positive
then the budget `finalBalance` is strictly positive when each entry of the ranking is
reached (the exit `finalBalance == 0` is never taken) and every ticker of the ranking is
visited; and a budget of 0 at some entry means that the total value was 0 from the
start. -/
theorem early_exit_only_without_value (portfolio : List Position) (ranking : List String)
    (money : ℚ) (prices : Prices) (hamt : ∀ p ∈ portfolio, 0 ≤ p.Amount) (hmoney : 0 ≤ money)
    (hheld : ∀ p ∈ portfolio, 0 < getPrice prices p.Ticket)
    (hranked : ∀ t ∈ ranking, 0 < getPrice prices t) :
    (0 < money + getPortfolioValue portfolio prices →
      (∀ pre t post, ranking = pre ++ t :: post →
        0 < (rankingLoop portfolio prices (targetValue portfolio ranking money prices) pre
          (initialState portfolio money prices)).finalBalance) ∧
      (∀ t ∈ ranking, t ∈ (loopResult portfolio ranking money prices).visited)) ∧
    (∀ pre t post, ranking = pre ++ t :: post →
      (rankingLoop portfolio prices (targetValue portfolio ranking money prices) pre
        (initialState portfolio money prices)).finalBalance = 0 →
      money + getPortfolioValue portfolio prices = 0) := by
  have hval : 0 ≤ getPortfolioValue portfolio prices :=
    getPortfolioValue_nonneg portfolio prices hamt (fun p hp => (hheld p hp).le)
  refine ⟨fun htotal => ⟨fun pre t post hsplit =>
    budget_positive_at_entry portfolio ranking money prices hamt hranked htotal pre t post
      hsplit, ?_⟩, ?_⟩
  · intro t ht
    obtain ⟨pre, post, hsplit⟩ := List.append_of_mem ht
    have hpos := budget_positive_at_entry portfolio ranking money prices hamt hranked htotal
      pre t post hsplit
    have hloop : loopResult portfolio ranking money prices
        = rankingLoop portfolio prices (targetValue portfolio ranking money prices) post
            (iteration portfolio prices (targetValue portfolio ranking money prices) t
              (rankingLoop portfolio prices (targetValue portfolio ranking money prices) pre
                (initialState portfolio money prices))) := by
      have key : ∀ tg : ℚ,
          0 < (rankingLoop portfolio prices tg pre
            (initialState portfolio money prices)).finalBalance →
          rankingLoop portfolio prices tg ranking (initialState portfolio money prices)
            = rankingLoop portfolio prices tg post (iteration portfolio prices tg t
                (rankingLoop portfolio prices tg pre (initialState portfolio money prices))) := by
        intro tg h
        rw [hsplit, rankingLoop_append]
        simp [rankingLoop, h.ne.symm]
      exact key _ hpos
    obtain ⟨lb, lo, k, -, -, hv, -, -⟩ := rankingLoop_shape portfolio prices
      (targetValue portfolio ranking money prices) post
      (iteration portfolio prices (targetValue portfolio ranking money prices) t
        (rankingLoop portfolio prices (targetValue portfolio ranking money prices) pre
          (initialState portfolio money prices)))
    rw [hloop, hv, iteration_visited]
    simp
  · intro pre t post hsplit hzero
    by_contra hne
    have htotal : 0 < money + getPortfolioValue portfolio prices :=
      lt_of_le_of_ne (add_nonneg hmoney hval) (Ne.symm hne)
    have hpos := budget_positive_at_entry portfolio ranking money prices hamt hranked htotal
      pre t post hsplit
    rw [hzero] at hpos
    exact lt_irrefl _ hpos

/-- C10 at the two-ticket scenario, whose total value is 2000: BBB is visited and the
budget is positive when BBB is reached. -/
theorem early_exit_only_without_value_witness :
    "BBB" ∈ (loopResult [⟨"AAA", 100⟩] ["AAA", "BBB"] 1000 pricesAB).visited ∧
      0 < (rankingLoop [⟨"AAA", 100⟩] pricesAB
        (targetValue [⟨"AAA", 100⟩] ["AAA", "BBB"] 1000 pricesAB) ["AAA"]
        (initialState [⟨"AAA", 100⟩] 1000 pricesAB)).finalBalance :=
  have h := (early_exit_only_without_value [⟨"AAA", 100⟩] ["AAA", "BBB"] 1000 pricesAB
    (by simp) (by norm_num) (by simp [getPrice, pricesAB])
    (by
      have h : ("BBB" = "AAA") = False := by decide
      simp [getPrice, pricesAB, h])).1
    (by norm_num [getPortfolioValue, getPrice, pricesAB])
  ⟨h.2 "BBB" (by simp), h.1 ["AAA"] "BBB" [] rfl⟩

/-! ## Budget conservation -/

/-- C7 as stated fails at the two-ticket scenario (every ticker priced, largest price 20):
the buys are worth 0 + 1000 and there is no sell, `cash + value before - value after` is
1000 + 1000 - 2000 = 0, and the difference 1000 exceeds 2 operations * 20. -/
theorem budget_claim_fails_on_two_tickets :
    (∀ t, getPrice pricesAB t ≤ 20) ∧
    ¬ |((((distribute [⟨"AAA", 100⟩] ["AAA", "BBB"] 1000 pricesAB).2.filter
            (fun o => decide (o.Op = "buy"))).map
            (fun o => ((⌊o.Amount * getPrice pricesAB o.Ticket⌋ : ℤ) : ℚ))).sum
          - (((distribute [⟨"AAA", 100⟩] ["AAA", "BBB"] 1000 pricesAB).2.filter
            (fun o => decide (o.Op = "sell"))).map
            (fun o => ((⌊o.Amount * getPrice pricesAB o.Ticket⌋ : ℤ) : ℚ))).sum)
        - (1000 + getPortfolioValue [⟨"AAA", 100⟩] pricesAB
            - getPortfolioValue (distribute [⟨"AAA", 100⟩] ["AAA", "BBB"] 1000 pricesAB).1
                pricesAB)|
      ≤ ((distribute [⟨"AAA", 100⟩] ["AAA", "BBB"] 1000 pricesAB).2.length : ℚ) * 20 := by
  have h1 : ("AAA" = "BBB") = False := by decide
  have h2 : ("BBB" = "AAA") = False := by decide
  have h3 : ("buy" = "sell") = False := by decide
  have hd : distribute [⟨"AAA", 100⟩] ["AAA", "BBB"] 1000 pricesAB
      = ([⟨"AAA", 100⟩, ⟨"BBB", 50⟩], [⟨"buy", "AAA", 0⟩, ⟨"buy", "BBB", 50⟩]) := by
    norm_num [distribute, loopResult, rankingLoop, iteration, initialState, targetValue,
      getPortfolioValue, getPrice, getAmount, pricesAB, operationAmount, operationValue,
      unroundedAmount, required, mathMod, trunc, liquidate, h1, h2]
  constructor
  · intro t
    unfold getPrice pricesAB
    split_ifs <;> norm_num
  · rw [hd]
    norm_num [getPortfolioValue, getPrice, pricesAB, h1, h2, h3]

/-- The three ways through the body of the loop: a sell of `x` leaving the held amount
minus `x`, a buy of `x` leaving the held amount plus `x`, or nothing appended. -/
theorem iteration_cases (portfolio : List Position) (prices : Prices) (target : ℚ)
    (ticket : String) (s : LoopState) :
    (∃ x : ℚ, (iteration portfolio prices target ticket s).balanced
          = s.balanced ++ [(⟨ticket, getAmount portfolio ticket - x⟩ : Position)] ∧
        (iteration portfolio prices target ticket s).operations
          = s.operations ++ [(⟨"sell", ticket, x⟩ : Operation)]) ∨
      (∃ x : ℚ, (iteration portfolio prices target ticket s).balanced
          = s.balanced ++ [(⟨ticket, getAmount portfolio ticket + x⟩ : Position)] ∧
        (iteration portfolio prices target ticket s).operations
          = s.operations ++ [(⟨"buy", ticket, x⟩ : Operation)]) ∨
      ((iteration portfolio prices target ticket s).balanced = s.balanced ∧
        (iteration portfolio prices target ticket s).operations = s.operations) := by
  unfold iteration
  dsimp only
  split_ifs
  · exact Or.inl ⟨_, rfl, rfl⟩
  · exact Or.inr (Or.inl ⟨_, rfl, rfl⟩)
  · exact Or.inr (Or.inr ⟨rfl, rfl⟩)

/-- Exact accounting of the loop.  It appends positions `lb`, operations `lo` and visited
tickers `lv`, never more positions than visited tickers; when it appends as many (no
processed ticker is left without a position), the value of `lb` minus the exact value of
the buys of `lo` plus the exact value of the sells of `lo` is the value held in the
processed tickers. -/
theorem rankingLoop_accounting (portfolio : List Position) (prices : Prices) (target : ℚ)
    (ranking : List String) (s : LoopState) :
    ∃ (lb : List Position) (lo : List Operation) (lv : List String),
      (rankingLoop portfolio prices target ranking s).balanced = s.balanced ++ lb ∧
      (rankingLoop portfolio prices target ranking s).operations = s.operations ++ lo ∧
      (rankingLoop portfolio prices target ranking s).visited = s.visited ++ lv ∧
      lb.length ≤ lv.length ∧
      (lb.length = lv.length →
        (lb.map (fun q => getPrice prices q.Ticket * q.Amount)).sum
          - (((lo.filter (fun o => decide (o.Op = "buy"))).map
              (fun o => o.Amount * getPrice prices o.Ticket)).sum
            - ((lo.filter (fun o => decide (o.Op = "sell"))).map
              (fun o => o.Amount * getPrice prices o.Ticket)).sum)
          = (lv.map (fun t => getPrice prices t * getAmount portfolio t)).sum) := by
  have h1 : ("sell" = "buy") = False := by decide
  have h2 : ("buy" = "sell") = False := by decide
  induction ranking generalizing s with
  | nil => exact ⟨[], [], [], by simp [rankingLoop]⟩
  | cons t rest ih =>
    by_cases h : s.finalBalance = 0
    · exact ⟨[], [], [], by simp [rankingLoop, h]⟩
    · obtain ⟨lb, lo, lv, hb, ho, hv, hlen, hval⟩ := ih (iteration portfolio prices target t s)
      rw [iteration_visited] at hv
      rcases iteration_cases portfolio prices target t s with
        ⟨x, eb, eo⟩ | ⟨x, eb, eo⟩ | ⟨eb, eo⟩
      · rw [eb] at hb
        rw [eo] at ho
        refine ⟨⟨t, getAmount portfolio t - x⟩ :: lb, ⟨"sell", t, x⟩ :: lo, t :: lv,
          ?_, ?_, ?_, ?_, ?_⟩
        · simpa [rankingLoop, h] using hb
        · simpa [rankingLoop, h] using ho
        · simpa [rankingLoop, h] using hv
        · simpa using hlen
        · intro hl
          have hv2 := hval (by simpa using hl)
          simp only [List.map_cons, List.sum_cons, List.filter_cons, h1, decide_False,
            decide_True, if_true]
          simp only [Bool.false_eq_true, if_false]
          linarith
      · rw [eb] at hb
        rw [eo] at ho
        refine ⟨⟨t, getAmount portfolio t + x⟩ :: lb, ⟨"buy", t, x⟩ :: lo, t :: lv,
          ?_, ?_, ?_, ?_, ?_⟩
        · simpa [rankingLoop, h] using hb
        · simpa [rankingLoop, h] using ho
        · simpa [rankingLoop, h] using hv
        · simpa using hlen
        · intro hl
          have hv2 := hval (by simpa using hl)
          simp only [List.map_cons, List.sum_cons, List.filter_cons, h2, decide_False,
            decide_True, if_true]
          simp only [Bool.false_eq_true, if_false]
          linarith
      · rw [eb] at hb
        rw [eo] at ho
        refine ⟨lb, lo, t :: lv, ?_, ?_, ?_, ?_, ?_⟩
        · simpa [rankingLoop, h] using hb
        · simpa [rankingLoop, h] using ho
        · simpa [rankingLoop, h] using hv
        · simp only [List.length_cons]
          omega
        · intro hl
          simp only [List.length_cons] at hl
          omega

/-- In a portfolio without a repeated ticker, the value of the positions holding `t` is
`price * getAmount`. -/
theorem held_value_eq (portfolio : List Position) (prices : Prices) (t : String)
    (hnd : (portfolio.map Position.Ticket).Nodup) :
    ((portfolio.filter (fun q => decide (q.Ticket = t))).map
        (fun q => getPrice prices q.Ticket * q.Amount)).sum
      = getPrice prices t * getAmount portfolio t := by
  induction portfolio with
  | nil => simp [getAmount]
  | cons q rest ih =>
    rw [List.map_cons, List.nodup_cons] at hnd
    by_cases hq : q.Ticket = t
    · have hnone : rest.filter (fun r => decide (r.Ticket = t)) = [] := by
        rw [List.filter_eq_nil_iff]
        intro r hr
        simp only [decide_eq_true_eq]
        intro e
        exact hnd.1 (by rw [hq, ← e]; exact List.mem_map_of_mem _ hr)
      simp [List.filter_cons, hq, hnone, getAmount]
    · simp [List.filter_cons, hq, getAmount, ih hnd.2]

/-- Splitting the positions whose ticker is in `t :: v` into those of `t` and those of
`v`, when `t` is not in `v`. -/
theorem sum_filter_mem_cons (portfolio : List Position) (f : Position → ℚ) (t : String)
    (v : List String) (ht : t ∉ v) :
    ((portfolio.filter (fun q => decide (q.Ticket ∈ t :: v))).map f).sum
      = ((portfolio.filter (fun q => decide (q.Ticket = t))).map f).sum
        + ((portfolio.filter (fun q => decide (q.Ticket ∈ v))).map f).sum := by
  induction portfolio with
  | nil => simp
  | cons q rest ih =>
    simp only [List.mem_cons] at ih ⊢
    by_cases hq : q.Ticket = t
    · have hnv : q.Ticket ∉ v := by rw [hq]; exact ht
      simp only [List.filter_cons, hq, true_or, decide_True, if_true,
        List.map_cons, List.sum_cons]
      rw [← hq] at ih ⊢
      simp only [hnv, decide_False, Bool.false_eq_true, if_false]
      rw [hq] at ih ⊢
      rw [ih]
      ring
    · by_cases hv : q.Ticket ∈ v
      · simp only [List.filter_cons, hq, hv, or_true, decide_True, if_true,
          decide_False, Bool.false_eq_true, if_false, List.map_cons, List.sum_cons]
        rw [ih]
        ring
      · simp only [List.filter_cons, hq, hv, or_self, decide_False,
          Bool.false_eq_true, if_false]
        exact ih

/-- With no repeated ticker in `v` nor in the portfolio, the value held in the tickers of
`v`, read through `getAmount`, is the value of the positions whose ticker is in `v`. -/
theorem visited_value_eq (portfolio : List Position) (prices : Prices) (v : List String)
    (hv : v.Nodup) (hnd : (portfolio.map Position.Ticket).Nodup) :
    (v.map (fun t => getPrice prices t * getAmount portfolio t)).sum
      = ((portfolio.filter (fun q => decide (q.Ticket ∈ v))).map
          (fun q => getPrice prices q.Ticket * q.Amount)).sum := by
  induction v with
  | nil => simp
  | cons t v ih =>
    rw [List.nodup_cons] at hv
    rw [sum_filter_mem_cons portfolio _ t v hv.1, held_value_eq portfolio prices t hnd,
      ← ih hv.2]
    simp

/-- The value of a portfolio splits into the positions whose ticker is in `v` and the
others. -/
theorem sum_filter_split (portfolio : List Position) (f : Position → ℚ) (v : List String) :
    (portfolio.map f).sum
      = ((portfolio.filter (fun q => decide (q.Ticket ∈ v))).map f).sum
        + ((portfolio.filter (fun q => !decide (q.Ticket ∈ v))).map f).sum := by
  induction portfolio with
  | nil => simp
  | cons q rest ih =>
    by_cases hq : q.Ticket ∈ v
    · simp only [List.map_cons, List.sum_cons, List.filter_cons, hq, decide_True, if_true,
        Bool.not_true, Bool.false_eq_true, if_false]
      rw [ih]
      ring
    · simp only [List.map_cons, List.sum_cons, List.filter_cons, hq, decide_False,
        Bool.false_eq_true, if_false, Bool.not_false, if_true]
      rw [ih]
      ring

/-- Flooring the value of each operation of a list loses between 0 and the length of the
list. -/
theorem floor_loss_bounds (prices : Prices) (l : List Operation) :
    0 ≤ (l.map (fun o => o.Amount * getPrice prices o.Ticket)).sum
        - (l.map (fun o => ((⌊o.Amount * getPrice prices o.Ticket⌋ : ℤ) : ℚ))).sum ∧
      (l.map (fun o => o.Amount * getPrice prices o.Ticket)).sum
        - (l.map (fun o => ((⌊o.Amount * getPrice prices o.Ticket⌋ : ℤ) : ℚ))).sum
        ≤ (l.length : ℚ) := by
  induction l with
  | nil => simp
  | cons o rest ih =>
    obtain ⟨ih1, ih2⟩ := ih
    have hf1 := Int.floor_le (o.Amount * getPrice prices o.Ticket)
    have hf2 := Int.lt_floor_add_one (o.Amount * getPrice prices o.Ticket)
    simp only [List.map_cons, List.sum_cons, List.length_cons, Nat.cast_add, Nat.cast_one]
    constructor <;> linarith

/-- A full sell of every position of a list: no buy among them, all of them sells. -/
theorem liquidation_kinds (l : List Position) :
    (l.map (fun q => ({ Op := "sell", Ticket := q.Ticket, Amount := q.Amount } : Operation))).filter
        (fun o => decide (o.Op = "buy")) = [] ∧
      (l.map (fun q => ({ Op := "sell", Ticket := q.Ticket, Amount := q.Amount } : Operation))).filter
        (fun o => decide (o.Op = "sell"))
        = l.map (fun q => ({ Op := "sell", Ticket := q.Ticket, Amount := q.Amount } : Operation)) := by
  have h1 : ("sell" = "buy") = False := by decide
  induction l with
  | nil => exact ⟨rfl, rfl⟩
  | cons q rest ih =>
    obtain ⟨ih1, ih2⟩ := ih
    constructor
    · simp only [List.map_cons, List.filter_cons, h1, decide_False]
      exact ih1
    · simp only [List.map_cons, List.filter_cons, decide_True, if_true]
      rw [ih2]

/-- C7 amended: with amounts, prices and cash read as exact numbers, no repeated ticker in
the ranking nor in the portfolio, and every ticker processed by the ranking loop given a
position in the balanced portfolio, the value of the returned buys minus the value of the
returned sells, the value of an operation being `floor (amount * price of its ticker)`,
differs from `value of the balanced portfolio - value of the input portfolio` by at most
the number of returned operations; hence by at most that number times `M` for every
`M ≥ 1`, such as a largest price that is at least 1. -/
theorem budget_conservation (portfolio : List Position) (ranking : List String) (money : ℚ)
    (prices : Prices) (hrank : ranking.Nodup)
    (hport : (portfolio.map Position.Ticket).Nodup)
    (hkept : ∀ t ∈ (loopResult portfolio ranking money prices).visited,
      t ∈ (distribute portfolio ranking money prices).1.map Position.Ticket) :
    |((((distribute portfolio ranking money prices).2.filter
            (fun o => decide (o.Op = "buy"))).map
            (fun o => ((⌊o.Amount * getPrice prices o.Ticket⌋ : ℤ) : ℚ))).sum
          - (((distribute portfolio ranking money prices).2.filter
            (fun o => decide (o.Op = "sell"))).map
            (fun o => ((⌊o.Amount * getPrice prices o.Ticket⌋ : ℤ) : ℚ))).sum)
        - (getPortfolioValue (distribute portfolio ranking money prices).1 prices
            - getPortfolioValue portfolio prices)|
      ≤ ((distribute portfolio ranking money prices).2.length : ℚ) ∧
    ∀ M : ℚ, 1 ≤ M →
      |((((distribute portfolio ranking money prices).2.filter
            (fun o => decide (o.Op = "buy"))).map
            (fun o => ((⌊o.Amount * getPrice prices o.Ticket⌋ : ℤ) : ℚ))).sum
          - (((distribute portfolio ranking money prices).2.filter
            (fun o => decide (o.Op = "sell"))).map
            (fun o => ((⌊o.Amount * getPrice prices o.Ticket⌋ : ℤ) : ℚ))).sum)
        - (getPortfolioValue (distribute portfolio ranking money prices).1 prices
            - getPortfolioValue portfolio prices)|
      ≤ ((distribute portfolio ranking money prices).2.length : ℚ) * M := by
  obtain ⟨lb, lo, lv, hb, ho, hv, hlen, hval⟩ := rankingLoop_accounting portfolio prices
    (targetValue portfolio ranking money prices) ranking (initialState portfolio money prices)
  obtain ⟨-, -, k, -, -, hv3, -, -⟩ := rankingLoop_shape portfolio prices
    (targetValue portfolio ranking money prices) ranking (initialState portfolio money prices)
  have hb2 : (loopResult portfolio ranking money prices).balanced = lb := by
    simpa [loopResult, initialState] using hb
  have ho2 : (loopResult portfolio ranking money prices).operations = lo := by
    simpa [loopResult, initialState] using ho
  have hv2 : (loopResult portfolio ranking money prices).visited = lv := by
    simpa [loopResult, initialState] using hv
  have hv4 : lv = ranking.take k := by
    rw [← hv2]
    simpa [loopResult, initialState] using hv3
  have hlvnd : lv.Nodup := by
    rw [hv4]
    exact hrank.sublist (List.take_sublist _ _)
  have hd1 : (distribute portfolio ranking money prices).1 = lb := by
    simp only [distribute]
    exact hb2
  rw [hv2, hd1] at hkept
  have hleneq : lb.length = lv.length := by
    have hsub : lv ⊆ lb.map Position.Ticket := fun t ht => hkept t ht
    have := (List.subperm_of_subset hlvnd hsub).length_le
    rw [List.length_map] at this
    omega
  have hexact := hval hleneq
  rw [visited_value_eq portfolio prices lv hlvnd hport] at hexact
  have hsplit := sum_filter_split portfolio (fun q => getPrice prices q.Ticket * q.Amount) lv
  obtain ⟨hk1, hk2⟩ := liquidation_kinds
    (portfolio.filter (fun q => !decide (q.Ticket ∈ lv)))
  have hd2 : (distribute portfolio ranking money prices).2
      = lo ++ (portfolio.filter (fun q => !decide (q.Ticket ∈ lv))).map
          (fun q => ({ Op := "sell", Ticket := q.Ticket, Amount := q.Amount } : Operation)) := by
    simp only [distribute]
    rw [liquidate_eq, ho2, hv2]
  obtain ⟨b1, b2⟩ := floor_loss_bounds prices (lo.filter (fun o => decide (o.Op = "buy")))
  obtain ⟨s1, s2⟩ := floor_loss_bounds prices (lo.filter (fun o => decide (o.Op = "sell")))
  obtain ⟨l1, l2⟩ := floor_loss_bounds prices
    ((portfolio.filter (fun q => !decide (q.Ticket ∈ lv))).map
      (fun q => ({ Op := "sell", Ticket := q.Ticket, Amount := q.Amount } : Operation)))
  have hliq : (((portfolio.filter (fun q => !decide (q.Ticket ∈ lv))).map
      (fun q => ({ Op := "sell", Ticket := q.Ticket, Amount := q.Amount } : Operation))).map
        (fun o => o.Amount * getPrice prices o.Ticket)).sum
      = ((portfolio.filter (fun q => !decide (q.Ticket ∈ lv))).map
          (fun q => getPrice prices q.Ticket * q.Amount)).sum := by
    rw [List.map_map]
    congr 1
    apply List.map_congr_left
    intro q _
    simp [mul_comm]
  have hnb : (((lo.filter (fun o => decide (o.Op = "buy"))).length : ℕ) : ℚ) ≤ (lo.length : ℚ) := by
    exact_mod_cast List.length_filter_le _ _
  have hns : (((lo.filter (fun o => decide (o.Op = "sell"))).length : ℕ) : ℚ) ≤ (lo.length : ℚ) := by
    exact_mod_cast List.length_filter_le _ _
  have hmain : |((((distribute portfolio ranking money prices).2.filter
            (fun o => decide (o.Op = "buy"))).map
            (fun o => ((⌊o.Amount * getPrice prices o.Ticket⌋ : ℤ) : ℚ))).sum
          - (((distribute portfolio ranking money prices).2.filter
            (fun o => decide (o.Op = "sell"))).map
            (fun o => ((⌊o.Amount * getPrice prices o.Ticket⌋ : ℤ) : ℚ))).sum)
        - (getPortfolioValue (distribute portfolio ranking money prices).1 prices
            - getPortfolioValue portfolio prices)|
      ≤ ((distribute portfolio ranking money prices).2.length : ℚ) := by
    rw [hd1, hd2, List.filter_append, List.filter_append, hk1, hk2, List.append_nil,
      List.map_append, List.sum_append, getPortfolioValue_eq_sum, getPortfolioValue_eq_sum,
      List.length_append, Nat.cast_add]
    have hq0 : (0 : ℚ) ≤ (lo.length : ℚ) := Nat.cast_nonneg _
    rw [abs_le]
    constructor <;> linarith
  refine ⟨hmain, fun M hM => hmain.trans ?_⟩
  have hq0 : (0 : ℚ) ≤ ((distribute portfolio ranking money prices).2.length : ℚ) :=
    Nat.cast_nonneg _
  nlinarith

/-- C7 amended, at portfolio [{AAA,300}], ranking ["AAA","BBB"], cash 0 and prices
{AAA:10, BBB:20}: the loop emits `sell AAA 100` (150 shares rounded to a lot) and
`buy BBB 75`; buys 1500 minus sells 1000 is the growth 3500 - 3000 of the portfolio. -/
theorem budget_conservation_witness :
    (distribute [⟨"AAA", 300⟩] ["AAA", "BBB"] 0 pricesAB
        = ([⟨"AAA", 200⟩, ⟨"BBB", 75⟩], [⟨"sell", "AAA", 100⟩, ⟨"buy", "BBB", 75⟩])) ∧
    |((((distribute [⟨"AAA", 300⟩] ["AAA", "BBB"] 0 pricesAB).2.filter
            (fun o => decide (o.Op = "buy"))).map
            (fun o => ((⌊o.Amount * getPrice pricesAB o.Ticket⌋ : ℤ) : ℚ))).sum
          - (((distribute [⟨"AAA", 300⟩] ["AAA", "BBB"] 0 pricesAB).2.filter
            (fun o => decide (o.Op = "sell"))).map
            (fun o => ((⌊o.Amount * getPrice pricesAB o.Ticket⌋ : ℤ) : ℚ))).sum)
        - (getPortfolioValue (distribute [⟨"AAA", 300⟩] ["AAA", "BBB"] 0 pricesAB).1 pricesAB
            - getPortfolioValue [⟨"AAA", 300⟩] pricesAB)|
      ≤ ((distribute [⟨"AAA", 300⟩] ["AAA", "BBB"] 0 pricesAB).2.length : ℚ) := by
  have h1 : ("AAA" = "BBB") = False := by decide
  have h2 : ("BBB" = "AAA") = False := by decide
  have hd : distribute [⟨"AAA", 300⟩] ["AAA", "BBB"] 0 pricesAB
      = ([⟨"AAA", 200⟩, ⟨"BBB", 75⟩], [⟨"sell", "AAA", 100⟩, ⟨"buy", "BBB", 75⟩]) := by
    norm_num [distribute, loopResult, rankingLoop, iteration, initialState, targetValue,
      getPortfolioValue, getPrice, getAmount, pricesAB, operationAmount, operationValue,
      unroundedAmount, required, mathMod, trunc, liquidate, h1, h2]
  have hv : (loopResult [⟨"AAA", 300⟩] ["AAA", "BBB"] 0 pricesAB).visited = ["AAA", "BBB"] := by
    norm_num [loopResult, rankingLoop, iteration, initialState, targetValue,
      getPortfolioValue, getPrice, getAmount, pricesAB, operationAmount, operationValue,
      unroundedAmount, required, mathMod, trunc, h1, h2]
  exact ⟨hd, (budget_conservation [⟨"AAA", 300⟩] ["AAA", "BBB"] 0 pricesAB (by decide)
    (by decide) (by rw [hv, hd]; decide)).1⟩

/-- Why the amended C7 bounds the difference by the number of operations rather than by
that number times the largest price: ranking ["AAA"], empty portfolio, cash 3/2, AAA at
3/10.  The loop buys 5 shares worth 3/2, of floored value 1; the portfolio grows by 3/2,
and the difference 1/2 exceeds 1 operation * 3/10. -/
theorem largest_price_bound_fails_below_one :
    distribute [] ["AAA"] (3 / 2) pricesCheap = ([⟨"AAA", 5⟩], [⟨"buy", "AAA", 5⟩]) ∧
    ¬ |((((distribute [] ["AAA"] (3 / 2) pricesCheap).2.filter
            (fun o => decide (o.Op = "buy"))).map
            (fun o => ((⌊o.Amount * getPrice pricesCheap o.Ticket⌋ : ℤ) : ℚ))).sum
          - (((distribute [] ["AAA"] (3 / 2) pricesCheap).2.filter
            (fun o => decide (o.Op = "sell"))).map
            (fun o => ((⌊o.Amount * getPrice pricesCheap o.Ticket⌋ : ℤ) : ℚ))).sum)
        - (getPortfolioValue (distribute [] ["AAA"] (3 / 2) pricesCheap).1 pricesCheap
            - getPortfolioValue [] pricesCheap)|
      ≤ ((distribute [] ["AAA"] (3 / 2) pricesCheap).2.length : ℚ) * (3 / 10) := by
  have h3 : ("buy" = "sell") = False := by decide
  have hf : ⌊(3 / 2 : ℚ)⌋ = 1 := by
    rw [Int.floor_eq_iff]
    norm_num
  have ha : |(3 / 2 : ℚ)| = 3 / 2 := abs_of_pos (by norm_num)
  have hb : |(1 / 2 : ℚ)| = 1 / 2 := abs_of_pos (by norm_num)
  have hd : distribute [] ["AAA"] (3 / 2) pricesCheap
      = ([⟨"AAA", 5⟩], [⟨"buy", "AAA", 5⟩]) := by
    norm_num [distribute, loopResult, rankingLoop, iteration, initialState, targetValue,
      getPortfolioValue, getPrice, getAmount, pricesCheap, operationAmount, operationValue,
      unroundedAmount, required, mathMod, trunc, liquidate, hf, ha]
  refine ⟨hd, ?_⟩
  rw [hd]
  norm_num [getPortfolioValue, getPrice, pricesCheap, h3, hf, hb]

end Distributer
